import Mathlib

/-!
Verification development for the PyGLL repository: a shallow embedding of
the grammar analysis (nullability, FIRST, FOLLOW, TEST sets), the integer
range sets, the GLL runtime (descriptor worklist, GSS, SPPF construction)
and the parser-IR builder, together with theorems settling the frozen
claims about the specification.

All definitions are translated from the Python sources under
src/pygll; the file and line references in doc comments point there.
-/

set_option maxRecDepth 10000

namespace PyGLL

/-! ### Grammar data model (src/pygll/grammar/context_free_grammar.py) -/

/-- Mirrors the frozen dataclass Terminal: an optional tuple of ranges and an
optional literal sequence.  Empty is the terminal with both fields None. -/
structure Terminal where
  ranges : Option (List (Int × Int))
  sequence : Option String
deriving DecidableEq, Repr

/-- Terminal.empty() -/
def Terminal.emptyT : Terminal := ⟨none, none⟩

/-- Terminal.literal(seq) -/
def Terminal.lit (s : String) : Terminal := ⟨none, some s⟩

/-- Terminal.character_class(ranges) -/
def Terminal.cls (rs : List (Int × Int)) : Terminal := ⟨some rs, none⟩

/-- ContextFreeGrammar.__is_empty_terminal -/
def Terminal.isEmptyT (t : Terminal) : Bool :=
  t.ranges.isNone && t.sequence.isNone

/-- Mirrors the frozen dataclass Nonterminal. -/
structure Nonterminal where
  name : String
deriving DecidableEq, Repr

/-- A grammar symbol: Terminal or Nonterminal (Python uses isinstance
dispatch on the two dataclasses). -/
inductive Sym where
  | t (t : Terminal)
  | nt (n : Nonterminal)
deriving DecidableEq, Repr

/-- ContextFreeGrammar.is_terminal -/
def Sym.isTerminal : Sym → Bool
  | .t _ => true
  | .nt _ => false

/-- An alternative is an ordered sequence of symbols; an expansion is the
list of alternatives of one nonterminal. -/
abbrev Alternative := List Sym

/-- The grammar: a start symbol and the rules dictionary, modelled as an
insertion-ordered association list (Python dicts preserve insertion
order). -/
structure CFG where
  start : Nonterminal
  rules : List (Nonterminal × List Alternative)
deriving DecidableEq, Repr

/-- Dictionary lookup self.__rules[nonterminal] (total, with the empty
expansion as the out-of-domain default; the Python code raises KeyError
there, and every claim only evaluates in-domain positions). -/
def CFG.expansions (g : CFG) (A : Nonterminal) : List Alternative :=
  ((g.rules.find? (fun e => e.1 = A)).map (fun e => e.2)).getD []

/-- The keys of the rules dictionary (universe of the nullables fixpoint). -/
def CFG.ruleKeys (g : CFG) : Finset Nonterminal :=
  (g.rules.map (fun e => e.1)).toFinset

/-- ContextFreeGrammar.__rule_is_nullable: every symbol of the rule is an
Empty terminal or a nonterminal in the current nullables set. -/
def ruleIsNullable (rule : Alternative) (nullables : Finset Nonterminal) : Bool :=
  rule.all fun s =>
    match s with
    | .nt n => n ∈ nullables
    | .t t => t.isEmptyT

/-- The additions computed by one pass of the nullables fixpoint loop
(the set comprehension inside ContextFreeGrammar.nullables). -/
def nullStep (g : CFG) (s : Finset Nonterminal) : Finset Nonterminal :=
  (g.ruleKeys).filter fun A => (g.expansions A).any fun rule => ruleIsNullable rule s

/-- The while-True loop of ContextFreeGrammar.nullables: stop when the
additions are contained in the accumulated set.  The loop adds at least
one rule key per iteration, so any fuel above the number of rule keys
reaches the same fixpoint the unbounded Python loop reaches (proved in
nullables_isFixpoint below). -/
def nullablesGo (g : CFG) : Nat → Finset Nonterminal → Finset Nonterminal
  | 0, s => s
  | fuel + 1, s =>
    let adds := nullStep g s
    if adds ⊆ s then s else nullablesGo g fuel (s ∪ adds)

/-- ContextFreeGrammar.nullables (fixpoint starting from the empty set). -/
def CFG.nullables (g : CFG) : Finset Nonterminal :=
  nullablesGo g (g.ruleKeys.card + 1) ∅

/-! FIRST sets: the begins-with relation and its transitive closure
(ContextFreeGrammar.first and relations.Relation.transitive_closure). -/

/-- The inner for-loop (with for-else) of
ContextFreeGrammar.__build_directly_followed_by_relation, for a single
alternative of nonterminal A.  Walks the symbols: a nonterminal adds a
pair and breaks if not nullable; an Empty terminal adds (A, Empty) and
continues; any other terminal adds its pair and breaks; if the loop
completes, (A, Empty) is added. -/
def pairsForAlt (g : CFG) (A : Nonterminal) : Alternative → List (Sym × Sym)
  | [] => [(Sym.nt A, Sym.t Terminal.emptyT)]
  | s :: rest =>
    match s with
    | .nt B =>
      if B ∈ g.nullables then (Sym.nt A, Sym.nt B) :: pairsForAlt g A rest
      else [(Sym.nt A, Sym.nt B)]
    | .t t =>
      if t.isEmptyT then (Sym.nt A, Sym.t Terminal.emptyT) :: pairsForAlt g A rest
      else [(Sym.nt A, Sym.t t)]

/-- ContextFreeGrammar.__build_directly_followed_by_relation: all pairs over
all rules and alternatives. -/
def basePairs (g : CFG) : List (Sym × Sym) :=
  g.rules.flatMap fun e => e.2.flatMap fun alt => pairsForAlt g e.1 alt

/-- One pivot step of relations.Relation.transitive_closure (Warshall):
keep the relation and add every absent pair (i, j) with (i, k) and (k, j)
present, with i and j ranging over the support of the original
relation. -/
def transStep (support : List Sym) (rel : List (Sym × Sym)) (k : Sym) : List (Sym × Sym) :=
  rel ++ support.flatMap fun i =>
    support.filterMap fun j =>
      if (i, j) ∈ rel then none
      else if (i, k) ∈ rel ∧ (k, j) ∈ rel then some (i, j)
      else none

/-- relations.Relation.transitive_closure: fold the pivot step over the
support (left and right elements) of the relation. -/
def transClosure (pairs : List (Sym × Sym)) : List (Sym × Sym) :=
  let support := (pairs.map (fun p => p.1) ++ pairs.map (fun p => p.2)).dedup
  support.foldl (transStep support) pairs

/-- ContextFreeGrammar.first: for a terminal, the singleton; for a
nonterminal, the terminal-valued entries of its row in the transitive
closure of the begins-with relation. -/
def CFG.first (g : CFG) (x : Sym) : Finset Terminal :=
  match x with
  | .t t => {t}
  | .nt A =>
    ((transClosure (basePairs g)).filterMap fun p =>
      match p with
      | (.nt B, .t t) => if B = A then some t else none
      | _ => none).toFinset

/-! FOLLOW sets (ContextFreeGrammar.__build_follow_mapping). -/

/-- The inner walk over the remainder of an alternative after a nonterminal
occurrence: accumulate first(sym) minus Empty while Empty stays in
first(sym); report whether the walk completed (for-else). -/
def followWalk (g : CFG) : List Sym → Finset Terminal × Bool
  | [] => (∅, true)
  | s :: rest =>
    let f := g.first s
    if Terminal.emptyT ∈ f then
      let (acc, done) := followWalk g rest
      ((f \ {Terminal.emptyT}) ∪ acc, done)
    else
      (f \ {Terminal.emptyT}, false)

/-- Step 1 of __build_follow_mapping restricted to one alternative of X:
the list of initial follow-mapping contributions (B, terminals) and of
subsumption relations (X, B). -/
def followBaseForAlt (g : CFG) (X : Nonterminal) :
    List Sym → List (Nonterminal × Finset Terminal) × List (Nonterminal × Nonterminal)
  | [] => ([], [])
  | s :: rest =>
    let (ms, rs) := followBaseForAlt g X rest
    match s with
    | .t _ => (ms, rs)
    | .nt B =>
      if rest.isEmpty then (ms, (X, B) :: rs)
      else
        let (acc, done) := followWalk g rest
        if done then ((B, acc) :: ms, (X, B) :: rs)
        else ((B, acc) :: ms, rs)

/-- Step 1 of __build_follow_mapping over the whole grammar. -/
def followBase (g : CFG) :
    List (Nonterminal × Finset Terminal) × List (Nonterminal × Nonterminal) :=
  g.rules.foldl
    (fun st e =>
      e.2.foldl
        (fun st alt =>
          let (ms, rs) := followBaseForAlt g e.1 alt
          (st.1 ++ ms, st.2 ++ rs))
        st)
    ([], [])

/-- The follow mapping as a finitely supported function: union of all
contributions recorded for a nonterminal (mirrors the defaultdict(set)). -/
def mappingGet (m : List (Nonterminal × Finset Terminal)) (A : Nonterminal) : Finset Terminal :=
  (m.filter (fun e => e.1 = A)).foldl (fun acc e => acc ∪ e.2) ∅

/-- One pass of the Step-2 fixpoint loop of __build_follow_mapping: for
every subsumption pair (x, y) in order, if follow(x) is not contained in
follow(y), merge it in and record a change. -/
def followPass (rels : List (Nonterminal × Nonterminal))
    (m : List (Nonterminal × Finset Terminal)) :
    List (Nonterminal × Finset Terminal) × Bool :=
  rels.foldl
    (fun st r =>
      if mappingGet st.1 r.1 ⊆ mappingGet st.1 r.2 then st
      else ((r.2, mappingGet st.1 r.1) :: st.1, true))
    (m, false)

/-- The while-True stabilisation loop of __build_follow_mapping, with
explicit fuel (each changed pass strictly grows some follow set, so any
fuel at least the total capacity reaches the same fixpoint the Python
loop reaches). -/
def followFix (rels : List (Nonterminal × Nonterminal)) :
    Nat → List (Nonterminal × Finset Terminal) → List (Nonterminal × Finset Terminal)
  | 0, m => m
  | fuel + 1, m =>
    let (m2, changed) := followPass rels m
    if changed then followFix rels fuel m2 else m

/-- Fuel bound for the follow fixpoint: number of nonterminals times
number of distinct terminals occurring anywhere, plus one. -/
def CFG.followFuel (g : CFG) : Nat :=
  let terms := g.rules.flatMap fun e => e.2.flatMap fun alt =>
    alt.filterMap fun s => match s with | .t t => some t | _ => none
  (g.ruleKeys.card + 1) * (terms.dedup.length + 2) + 1

/-- ContextFreeGrammar.follow: the stabilised follow mapping, read at x. -/
def CFG.follow (g : CFG) (A : Nonterminal) : Finset Terminal :=
  let (m0, rels) := followBase g
  mappingGet (followFix rels g.followFuel m0) A

/-! FIRST/FOLLOW/TEST for sequences
(first_for_sequence, follow_for_sequence, test_for_sequence). -/

/-- The accumulation loop of ContextFreeGrammar.first_for_sequence: add
first(sym) minus Empty and stop at the first symbol whose first does not
contain Empty; if the walk completes, add Empty (for-else). -/
def firstSeqGo (g : CFG) : List Sym → Finset Terminal → Finset Terminal
  | [], acc => acc ∪ {Terminal.emptyT}
  | s :: rest, acc =>
    let addition := g.first s
    let acc2 := acc ∪ (addition \ {Terminal.emptyT})
    if Terminal.emptyT ∈ addition then firstSeqGo g rest acc2 else acc2

/-- ContextFreeGrammar.first_for_sequence on position (A, k, j). -/
def CFG.firstForSeq (g : CFG) (A : Nonterminal) (k j : Nat) : Finset Terminal :=
  firstSeqGo g (((g.expansions A).getD k []).drop j) ∅

/-- The accumulation loop of ContextFreeGrammar.follow_for_sequence: like
the first walk but finishing with follow(A) when the walk completes. -/
def followSeqGo (g : CFG) (A : Nonterminal) : List Sym → Finset Terminal → Finset Terminal
  | [], acc => acc ∪ g.follow A
  | s :: rest, acc =>
    let f := g.first s
    let acc2 := acc ∪ (f \ {Terminal.emptyT})
    if Terminal.emptyT ∈ f then followSeqGo g A rest acc2 else acc2

/-- ContextFreeGrammar.follow_for_sequence on position (A, k, j): walks the
symbols strictly after position j. -/
def CFG.followForSeq (g : CFG) (A : Nonterminal) (k j : Nat) : Finset Terminal :=
  followSeqGo g A (((g.expansions A).getD k []).drop (j + 1)) ∅

/-- ContextFreeGrammar.test_for_sequence: the special case for the suffix
equal to the one-element tuple (Empty,), then FIRST of the suffix,
unioned with follow_for_sequence when it contains an empty terminal. -/
def CFG.testForSeq (g : CFG) (A : Nonterminal) (k j : Nat) : Finset Terminal :=
  if ((g.expansions A).getD k []).drop j = [Sym.t Terminal.emptyT] then
    {Terminal.emptyT}
  else
    let first := g.firstForSeq A k j
    if first.filter (fun x => x.isEmptyT) ≠ ∅ then
      first ∪ g.followForSeq A k j
    else first

/-- ContextFreeGrammar.test on a single symbol (used for the guard of
nonterminal steps in the IR builder); follow is only consulted for
nonterminal symbols, matching the only call sites. -/
def CFG.testSym (g : CFG) (s : Sym) : Finset Terminal :=
  let f := g.first s
  if f.filter (fun x => x.isEmptyT) ≠ ∅ then
    match s with
    | .nt A => f ∪ g.follow A
    | .t _ => f
  else f

/-! ### Integer range sets (src/pygll/util/algorithms/int_sets.py) -/

/-- The inner for-loop of IntSet.__union over ranges[1:]: each other range
is kept when disjoint from and not adjacent to the accumulated (start,
stop); otherwise it is merged into the accumulator and a change is
recorded.  Returns (kept ranges in order, final accumulator, changed). -/
def unionPass : (Int × Int) → List (Int × Int) → List (Int × Int) × (Int × Int) × Bool
  | acc, [] => ([], acc, false)
  | acc, o :: rest =>
    let disjoint := acc.2 < o.1 ∨ acc.1 > o.2
    let adjacent := acc.2 + 1 = o.1 ∨ o.2 + 1 = acc.1
    if disjoint ∧ ¬adjacent then
      let res := unionPass acc rest
      (o :: res.1, res.2.1, res.2.2)
    else
      let res := unionPass (min acc.1 o.1, max acc.2 o.2) rest
      (res.1, res.2.1, true)

/-- The while-loop of IntSet.__union: repeatedly merge the head range into
the rest, stopping when a single range remains or when n consecutive
passes made no change (n is the original number of ranges).  Every
iteration either shortens the list or raises notChanged toward n, so any
fuel above length * (n + 1) + n makes the fuel guard unreachable
(the lemmas below about pyUnion prove their facts for such fuel). -/
def unionGo : Nat → List (Int × Int) → Nat → Nat → List (Int × Int)
  | _, [], _, _ => []
  | _, [r], _, _ => [r]
  | 0, rs, _, _ => rs
  | fuel + 1, r :: o :: rest, notChanged, n =>
    let res := unionPass r (o :: rest)
    let newRanges := res.1 ++ [res.2.1]
    let nc := cond res.2.2 0 (notChanged + 1)
    if nc ≥ n then newRanges
    else unionGo fuel newRanges nc n

/-- IntSet.__union: run the merge loop with the original length as the
stability bound. -/
def pyUnion (ranges : List (Int × Int)) : List (Int × Int) :=
  unionGo (ranges.length * (ranges.length + 1) + ranges.length + 1) ranges 0
    ranges.length

/-- The lexicographic tuple order used by Python sorted() on pairs. -/
def rangeLe (a b : Int × Int) : Prop :=
  a.1 < b.1 ∨ (a.1 = b.1 ∧ a.2 ≤ b.2)

instance : DecidableRel rangeLe := fun a b => by
  unfold rangeLe; infer_instance

instance : IsTotal (Int × Int) rangeLe :=
  ⟨by intro a b; unfold rangeLe; omega⟩

instance : IsTrans (Int × Int) rangeLe :=
  ⟨by intro a b c h1 h2; unfold rangeLe at h1 h2 ⊢; omega⟩

/-- sorted(...) in IntSet.__init__ (any stable sort; ties carry identical
tuples so the sorted list is uniquely determined). -/
def sortRanges (l : List (Int × Int)) : List (Int × Int) :=
  l.insertionSort rangeLe

/-- An integer range set: fixed universe and the stored range list. -/
structure IntSet where
  universeI : Int × Int
  content : List (Int × Int)
deriving DecidableEq, Repr

/-- IntSet.__init__: normalize the input ranges with __union, then sort. -/
def mkIntSet (content : List (Int × Int)) (u : Int × Int) : IntSet :=
  ⟨u, sortRanges (pyUnion content)⟩

/-- IntSet.empty_set -/
def IntSet.emptySet (u : Int × Int) : IntSet := mkIntSet [] u

/-- IntSet.empty -/
def IntSet.isEmptyS (s : IntSet) : Bool := s.content.isEmpty

/-- IntSet.__and__: pairwise clamp of ranges, skipping disjoint pairs, then
__union in the call and again in __init__. -/
def IntSet.inter (a b : IntSet) : IntSet :=
  if a.isEmptyS then a
  else
    mkIntSet
      (pyUnion (a.content.flatMap fun r =>
        b.content.filterMap fun s =>
          if r.1 > s.2 ∨ s.1 > r.2 then none
          else some (max r.1 s.1, min r.2 s.2)))
      a.universeI

/-- IntSet.__or__ -/
def IntSet.unionS (a b : IntSet) : IntSet :=
  if a.isEmptyS then b
  else mkIntSet (pyUnion (a.content ++ b.content)) a.universeI

/-- IntSet.__complement of a single range with respect to the universe
(selfEmpty is the emptiness of the set the method is called on). -/
def complementRange (selfEmpty : Bool) (u : Int × Int) (start stop : Int) : IntSet :=
  if (start, stop) = u then mkIntSet [] u
  else if selfEmpty then mkIntSet [u] u
  else if start = u.1 then mkIntSet [(stop + 1, u.2)] u
  else if stop = u.2 then mkIntSet [(u.1, start - 1)] u
  else mkIntSet [(u.1, start - 1), (stop + 1, u.2)] u

/-- IntSet.__invert__: intersection of the per-range complements, folded
from the full-universe set (functools.reduce with initializer). -/
def IntSet.complS (a : IntSet) : IntSet :=
  (a.content.map fun r => complementRange a.isEmptyS a.universeI r.1 r.2).foldl
    (fun x y => x.inter y) (mkIntSet [a.universeI] a.universeI)

/-- IntSet.__sub__: literally self & ~other. -/
def IntSet.diff (a b : IntSet) : IntSet := a.inter b.complS

/-- Membership of an integer in a stored range list. -/
def inRanges (x : Int) (l : List (Int × Int)) : Prop :=
  ∃ r ∈ l, r.1 ≤ x ∧ x ≤ r.2

/-- The element set of an IntSet. -/
def IntSet.elems (a : IntSet) (x : Int) : Prop := inRanges x a.content

/-! ### GLL runtime data (src/pygll/core/base.py) -/

/-- Mirrors the frozen dataclass GrammarSlot of core/base.py. -/
structure GrammarSlot where
  nonterminal : String
  alternate : Int
  position : Int
  alphaIsSpecial : Bool
  betaIsSpecial : Bool
deriving DecidableEq, Repr

/-- AbstractParser.NULL_SLOT -/
def nullSlot : GrammarSlot := ⟨"$null", 0, 0, false, false⟩

/-- SPPF nodes as compared by the frozen dataclasses (children are excluded
from comparison by compare=False, so they live in the created table, not
in the node value). -/
inductive PNode where
  | initial (l r : Nat)
  | term (l r : Nat) (symbol : String)
  | inter (l r : Nat) (slot : GrammarSlot) (isNonterminalNode : Bool)
deriving DecidableEq, Repr

def PNode.leftExtent : PNode → Nat
  | .initial l _ => l
  | .term l _ _ => l
  | .inter l _ _ _ => l

def PNode.rightExtent : PNode → Nat
  | .initial _ r => r
  | .term _ r _ => r
  | .inter _ r _ _ => r

def PNode.isInitial : PNode → Bool
  | .initial _ _ => true
  | _ => false

/-- IntermediateNodeKey fields. -/
structure IntermediateNodeKey where
  slot : GrammarSlot
  isNonterminalNode : Bool
  leftExtent : Nat
  rightExtent : Nat
deriving DecidableEq, Repr

/-- IntermediateNodeKey.__eq__: keys agree on the nonterminal-node flag;
nonterminal-node keys compare by nonterminal name and extents only,
other keys by the whole slot and extents. -/
def ikeyEq (a b : IntermediateNodeKey) : Bool :=
  if a.isNonterminalNode != b.isNonterminalNode then false
  else if a.isNonterminalNode then
    a.slot.nonterminal == b.slot.nonterminal &&
      a.leftExtent == b.leftExtent && a.rightExtent == b.rightExtent
  else
    a.slot == b.slot && a.leftExtent == b.leftExtent && a.rightExtent == b.rightExtent

/-- IntermediateNodeKey.__hash__: the tuple actually hashed. -/
def ikeyHashKey (a : IntermediateNodeKey) : (String ⊕ GrammarSlot) × Nat × Nat :=
  if a.isNonterminalNode then (Sum.inl a.slot.nonterminal, a.leftExtent, a.rightExtent)
  else (Sum.inr a.slot, a.leftExtent, a.rightExtent)

/-- PackedNodeKey -/
structure PackedNodeKey where
  slot : GrammarSlot
  split : Nat
deriving DecidableEq, Repr

/-- PackedNode (left may be absent for a single-symbol prefix). -/
structure PackedNode where
  leftExtent : Nat
  rightExtent : Nat
  slot : GrammarSlot
  split : Nat
  left : Option PNode
  right : PNode
deriving DecidableEq, Repr

/-- The created table: the dict from IntermediateNodeKey (under its custom
equality) to the canonical intermediate node; each entry stores the key
of the first-inserted node (whose fields the shared node object keeps)
and its packed-children dict. -/
abbrev Created := List (IntermediateNodeKey × List (PackedNodeKey × PackedNode))

/-- Dict lookup in created under IntermediateNodeKey.__eq__. -/
def lookupCreated (c : Created) (k : IntermediateNodeKey) :
    Option (IntermediateNodeKey × List (PackedNodeKey × PackedNode)) :=
  c.find? fun e => ikeyEq e.1 k

/-- In-place update of the children of the entry matching k. -/
def modifyCreated (c : Created) (k : IntermediateNodeKey)
    (f : List (PackedNodeKey × PackedNode) → List (PackedNodeKey × PackedNode)) : Created :=
  match c with
  | [] => []
  | e :: rest =>
    if ikeyEq e.1 k then (e.1, f e.2) :: rest else e :: modifyCreated rest k f

/-- GSS node references (core/base.py GSSNodeReference). -/
structure GSSRef where
  slot : GrammarSlot
  position : Nat
deriving DecidableEq, Repr

/-- The graph-structured stack (core/gss.py): node set plus the edge-label
dict keyed by (from, to). -/
structure GSS where
  nodes : List GSSRef
  edges : List ((GSSRef × GSSRef) × PNode)
deriving DecidableEq, Repr

def GSS.emptyG : GSS := ⟨[], []⟩

/-- GSS.__contains__ -/
def GSS.containsNode (g : GSS) (ref : GSSRef) : Bool := g.nodes.contains ref

/-- GSS.add_node -/
def GSS.addNode (g : GSS) (ref : GSSRef) : GSS := ⟨g.nodes ++ [ref], g.edges⟩

/-- GSS.add_edge: dict assignment on the label table (replace or insert). -/
def GSS.addEdge (g : GSS) (f t : GSSRef) (label : PNode) : GSS :=
  if g.edges.any fun e => e.1 = (f, t) then
    ⟨g.nodes, g.edges.map fun e => if e.1 = (f, t) then ((f, t), label) else e⟩
  else ⟨g.nodes, g.edges ++ [((f, t), label)]⟩

/-- GSS.get_children -/
def GSS.getChildren (g : GSS) (ref : GSSRef) : List GSSRef :=
  g.edges.filterMap fun e => if e.1.1 = ref then some e.1.2 else none

/-- GSS.get_edges: the (target, label) pairs out of a node. -/
def GSS.getEdges (g : GSS) (ref : GSSRef) : List (GSSRef × PNode) :=
  g.edges.filterMap fun e => if e.1.1 = ref then some (e.1.2, e.2) else none

/-- Descriptors (core/base.py Descriptor); equality is structural. -/
structure Descriptor where
  slot : GrammarSlot
  stack : GSSRef
  position : Nat
  node : PNode
deriving DecidableEq, Repr

/-- AbstractParser.root -/
def rootRef : GSSRef := ⟨nullSlot, 0⟩

/-- The mutable parse state created in AbstractParser.__init__. -/
structure PState where
  todo : List Descriptor
  seen : List Descriptor
  popped : List (GSSRef × List PNode)
  created : Created
  terminalNodes : List ((Nat × Nat × String) × PNode)
  gss : GSS
  cu : GSSRef
  cn : PNode
  cr : Option PNode
  pos : Nat
deriving DecidableEq, Repr

/-- Read of the popped defaultdict. -/
def poppedGet (p : List (GSSRef × List PNode)) (ref : GSSRef) : List PNode :=
  ((p.find? fun e => e.1 = ref).map fun e => e.2).getD []

/-- popped[ref].append(node) on the defaultdict. -/
def poppedAppend (p : List (GSSRef × List PNode)) (ref : GSSRef) (n : PNode) :
    List (GSSRef × List PNode) :=
  if p.any fun e => e.1 = ref then
    p.map fun e => if e.1 = ref then (e.1, e.2 ++ [n]) else e
  else p ++ [(ref, [n])]

/-- AbstractParser.add: build the descriptor, and only when it was never
seen record it as seen and append it to the worklist. -/
def PState.add (st : PState) (g : GrammarSlot) (stack : GSSRef) (position : Nat)
    (s : PNode) : PState :=
  let d : Descriptor := ⟨g, stack, position, s⟩
  if d ∈ st.seen then st
  else { st with seen := st.seen ++ [d], todo := st.todo ++ [d] }

/-- AbstractParser.get_node_t: canonicalize the terminal node for the
current scanner position in the terminal table. -/
def PState.getNodeT (st : PState) (ch : String) : PNode × PState :=
  let node : PNode := .term st.pos (st.pos + ch.length) ch
  let key := (st.pos, st.pos + ch.length, ch)
  match st.terminalNodes.find? fun e => e.1 = key with
  | some e => (e.2, st)
  | none => (node, { st with terminalNodes := st.terminalNodes ++ [(key, node)] })

/-- AbstractParser.get_node_p: return right unchanged for an
alpha-special, non-beta-special slot; otherwise canonicalize the
intermediate node in created and ensure the packed child keyed by
(slot, split). -/
def getNodeP (slot : GrammarSlot) (left right : PNode) (created : Created) :
    PNode × Created :=
  if slot.alphaIsSpecial ∧ ¬slot.betaIsSpecial then (right, created)
  else
    let leftExtent := if left.isInitial then right.leftExtent else left.leftExtent
    let key : IntermediateNodeKey := ⟨slot, slot.betaIsSpecial, leftExtent, right.rightExtent⟩
    let split := if left.isInitial then right.leftExtent else left.rightExtent
    let pkey : PackedNodeKey := ⟨slot, split⟩
    let packed : PackedNode :=
      ⟨leftExtent, right.rightExtent, slot, split,
        if left.isInitial then none else some left, right⟩
    match lookupCreated created key with
    | some e =>
      let node : PNode := .inter e.1.leftExtent e.1.rightExtent e.1.slot e.1.isNonterminalNode
      if e.2.any fun ch => ch.1 = pkey then (node, created)
      else (node, modifyCreated created key fun ch => ch ++ [(pkey, packed)])
    | none =>
      let node : PNode := .inter key.leftExtent key.rightExtent key.slot key.isNonterminalNode
      (node, created ++ [(key, [(pkey, packed)])])

/-- The getNodeP call threaded through the parse state. -/
def PState.nodeP (st : PState) (slot : GrammarSlot) (left right : PNode) :
    PNode × PState :=
  let res := getNodeP slot left right st.created
  (res.1, { st with created := res.2 })

/-- AbstractParser.create: ensure the GSS node for (slot, position); when
the current stack top is not yet a successor, add the labelled edge and
re-add a descriptor for every node previously popped at the reference. -/
def PState.create (st : PState) (slot : GrammarSlot) : GSSRef × PState :=
  let ref : GSSRef := ⟨slot, st.pos⟩
  let st1 := if st.gss.containsNode ref then st else { st with gss := st.gss.addNode ref }
  if st1.cu ∈ st1.gss.getChildren ref then (ref, st1)
  else
    let st2 := { st1 with gss := st1.gss.addEdge ref st1.cu st1.cn }
    let final :=
      (poppedGet st2.popped ref).foldl
        (fun s z =>
          let res := s.nodeP slot s.cn z
          res.2.add slot s.cu z.rightExtent res.1)
        st2
    (ref, final)

/-- AbstractParser.pop: away from the root, record the current node in
popped and re-add a descriptor along every outgoing GSS edge of the
current stack top.  No ambiguity check is consulted. -/
def PState.pop (st : PState) : PState :=
  if st.cu = rootRef then st
  else
    let st1 := { st with popped := poppedAppend st.popped st.cu st.cn }
    (st.gss.getEdges st.cu).foldl
      (fun s e =>
        let res := s.nodeP st.cu.slot e.2 st.cn
        res.2.add st.cu.slot e.1 st.pos res.1)
      st1

/-- The success check at the end of AbstractParser.__init__: look up the
intermediate node keyed by (final slot, nonterminal-node, 0, input
length) in created. -/
def parseResult (created : Created) (finalSlot : GrammarSlot) (inputLen : Nat) :
    Option PNode :=
  (lookupCreated created ⟨finalSlot, true, 0, inputLen⟩).map fun e =>
    .inter e.1.leftExtent e.1.rightExtent e.1.slot e.1.isNonterminalNode

/-- AbstractParser.result: the stored node, or a raised ValueError when the
completion node is absent (no partial tree). -/
def resultOrError (created : Created) (finalSlot : GrammarSlot) (inputLen : Nat) :
    Except String PNode :=
  match parseResult created finalSlot inputLen with
  | some n => .ok n
  | none => .error "Failed to parse"

/-! ### The main loop, abstractly (AbstractParser.__init__, lines 237-244)

The loop pops the leftmost descriptor, restores the registers and the
scanner position, and invokes the (abstract) goto method; every effect a
parse function has on the worklist goes through AbstractParser.add.  The
registers, scanner, GSS, popped and SPPF tables are bundled into an
opaque auxiliary state, and goto reports the descriptors it attempts to
add together with the new auxiliary state. -/
structure LoopState (D σ : Type) where
  todo : List D
  seen : Finset D
  aux : σ

/-- AbstractParser.add on the abstract loop state. -/
def addDescriptor {D σ : Type} [DecidableEq D] (d : D) (s : LoopState D σ) :
    LoopState D σ :=
  if d ∈ s.seen then s else ⟨s.todo ++ [d], insert d s.seen, s.aux⟩

/-- One iteration of the while-loop: pop from the left, run goto, perform
its add calls in order.  On an empty worklist the state is unchanged. -/
def loopStep {D σ : Type} [DecidableEq D] (goto : D → σ → List D × σ)
    (s : LoopState D σ) : LoopState D σ :=
  match s.todo with
  | [] => s
  | d :: rest =>
    let res := goto d s.aux
    res.1.foldl (fun st d2 => addDescriptor d2 st) ⟨rest, s.seen, res.2⟩

/-! ### Parser IR and the IR builder
(src/pygll/generator/abstract_parser.py and parser_generator.py) -/

/-- chr(i) as used in CheckDefinition.format_ranges. -/
def charS (i : Int) : String := String.singleton (Char.ofNat i.toNat)

/-- CheckDefinition.format_ranges -/
def formatRanges (ranges : List (Int × Int)) : String :=
  String.intercalate "__"
    (ranges.map fun r => if r.1 ≠ r.2 then charS r.1 ++ "_" ++ charS r.2 else charS r.1)

/-- GrammarSlotDefinition.get_slot_name -/
def getSlotName (nt : String) (alternate : Int) (position : Int) (isInitial : Bool) :
    String :=
  if isInitial ∧ alternate < 0 then "_initial_grammar_slot"
  else if isInitial then "_initial_grammar_slot_idx" ++ toString position
  else if alternate < 0 then "_grammar_slot_" ++ nt
  else "_grammar_slot_" ++ nt ++ "_alt" ++ toString alternate ++ "_idx" ++ toString position

/-- Input check definitions (LiteralCheckDefinition, RangeCheckDefinition). -/
inductive InputCheck where
  | literalCk (text : String)
  | rangeCk (ranges : List (Int × Int))
deriving DecidableEq, Repr

/-- The name properties of the two input check definitions. -/
def InputCheck.nameI : InputCheck → String
  | .literalCk text =>
    if text = "" then "terminal_test_empty" else "terminal_test_literal__" ++ text
  | .rangeCk ranges => "terminal_test_range__" ++ formatRanges ranges

/-- AmbiguityCheckDefinition._get_name -/
def ambName (base : String) (literals : List String) (ranges : List (Int × Int))
    (negated : Bool) : String :=
  let pre := if negated then "not_" else ""
  let b := "terminal_check_" ++ pre ++ base
  let fl := String.intercalate "__" literals
  let fr := formatRanges ranges
  if fr ≠ "" ∧ fl ≠ "" then b ++ "__" ++ fl ++ "__" ++ fr
  else if fr ≠ "" then b ++ "__" ++ fr
  else b ++ "__" ++ fl

/-- Ambiguity check definitions (PrecedeCheck, FollowCheck,
RestrictionCheck), each carrying the slot name it applies to. -/
inductive ACheck where
  | precedeC (slot : String) (literals : List String) (ranges : List (Int × Int))
      (negated : Bool)
  | followC (slot : String) (literals : List String) (ranges : List (Int × Int))
      (negated popCheck : Bool)
  | restrictionC (slot : String) (literals : List String) (ranges : List (Int × Int))
deriving DecidableEq, Repr

/-- The name properties: note that neither the slot nor the pop_check flag
enters the name. -/
def ACheck.nameA : ACheck → String
  | .precedeC _ l r n => ambName "precede" l r n
  | .followC _ l r n _ => ambName "follow" l r n
  | .restrictionC _ l r => ambName "restriction" l r false

/-- The as_pop_check methods of the three check classes. -/
def ACheck.asPopCheck : ACheck → Bool
  | .precedeC _ _ _ _ => false
  | .followC _ _ _ _ p => p
  | .restrictionC _ _ _ => true

/-- The slot field of a check. -/
def ACheck.slotA : ACheck → String
  | .precedeC s _ _ _ => s
  | .followC s _ _ _ _ => s
  | .restrictionC s _ _ => s

/-- GrammarSlotDefinition (generator side). -/
structure SlotDef where
  nonterminal : String
  alternate : Int
  position : Int
  alpha : Bool
  beta : Bool
  isInitial : Bool
deriving DecidableEq, Repr

/-- GrammarSlotDefinition.from_key_and_grammar. -/
def SlotDef.fromKey (ntName : String) (altIdx position : Nat) (g : CFG)
    (isInitial : Bool) : SlotDef :=
  let alternative := (g.expansions ⟨ntName⟩).getD altIdx []
  let alpha :=
    if position ≠ 1 then false
    else
      match alternative.head? with
      | some (.t _) => true
      | some (.nt h) => h ∉ g.nullables
      | none => false
  let beta := position = alternative.length
  ⟨ntName, if isInitial then -1 else (altIdx : Int), position, alpha, beta, isInitial⟩

/-- _InterpretedParser.__definition_to_slot -/
def SlotDef.toSlot (sd : SlotDef) : GrammarSlot :=
  ⟨sd.nonterminal, sd.alternate, sd.position, sd.alpha, sd.beta⟩

/-- IR statements (StatementDefinition subclasses). -/
inductive Stmt where
  | conditionalCheck (checks : List String) (body : List Stmt)
  | invokeNodeTCN (parentCheck : String)
  | invokeNodeTCR (parentCheck : String)
  | invokeNodePCN (grammarSlot : String)
  | invokeCreate (grammarSlot : String)
  | invokePop
  | invokeAdd (grammarSlot : String)
  | callFunction (function : String)
  | disambiguate (constraintCheck : String)

/-- dict[key] = value on an insertion-ordered association list. -/
def dictSet {α : Type} (l : List (String × α)) (k : String) (v : α) :
    List (String × α) :=
  if l.any fun e => e.1 = k then
    l.map fun e => if e.1 = k then (k, v) else e
  else l ++ [(k, v)]

/-- ParserDefinition (the parser IR container; metadata carries only a
display name and is omitted). -/
structure PDef where
  grammarSlots : List (String × SlotDef)
  inputChecks : List (String × InputCheck)
  parseFunctions : List (String × List Stmt)
  ambiguityChecks : List (String × ACheck)
  gotoMap : List (String × String)
  initialStart : Option String
  initialEnd : Option String

def PDef.emptyP : PDef := ⟨[], [], [], [], [], none, none⟩

/-- ParserDefinition.get_and_declare_grammar_slot -/
def PDef.declareSlot (d : PDef) (ntName : String) (altIdx position : Nat) (g : CFG)
    (isInitial : Bool) : String × PDef :=
  let nm := getSlotName ntName (altIdx : Int) (position : Int) isInitial
  if d.grammarSlots.any fun e => e.1 = nm then (nm, d)
  else
    (nm, { d with grammarSlots :=
      d.grammarSlots ++ [(nm, SlotDef.fromKey ntName altIdx position g isInitial)] })

/-- ParserDefinition.get_and_declare_literal_check /
get_and_declare_range_check -/
def PDef.declareInputCheck (d : PDef) (c : InputCheck) : String × PDef :=
  if d.inputChecks.any fun e => e.1 = c.nameI then (c.nameI, d)
  else (c.nameI, { d with inputChecks := d.inputChecks ++ [(c.nameI, c)] })

/-- ParserDefinition._get_and_declare_ambiguity: the dict is keyed by the
check name only, so a later check with the same name (same kind,
negation and payload, possibly a different slot or pop flag) is dropped
and the earlier one is reused. -/
def PDef.declareAmbiguity (d : PDef) (c : ACheck) : String × PDef :=
  if d.ambiguityChecks.any fun e => e.1 = c.nameA then (c.nameA, d)
  else (c.nameA, { d with ambiguityChecks := d.ambiguityChecks ++ [(c.nameA, c)] })

/-- ParserDefinition.add_function -/
def PDef.addFunction (d : PDef) (nm : String) (body : List Stmt) : PDef :=
  { d with parseFunctions := dictSet d.parseFunctions nm body }

/-- ParserDefinition.add_goto_entry -/
def PDef.addGoto (d : PDef) (k v : String) : PDef :=
  { d with gotoMap := dictSet d.gotoMap k v }

/-- Tags (parser_generator.Tag): kind plus terminal payload. -/
inductive TagKind where
  | precedeT
  | notPrecedeT
  | followT
  | notFollowT
  | restrictionT
deriving DecidableEq, Repr

abbrev Tag := TagKind × List Terminal

/-- The tag map keyed by grammar position (A, k, j). -/
abbrev TagMap := List ((Nonterminal × Nat × Nat) × List Tag)

def tagsGet (tags : TagMap) (k : Nonterminal × Nat × Nat) : List Tag :=
  ((tags.find? fun e => e.1 = k).map fun e => e.2).getD []

/-- parser_generator._split_terminals.  The class-terminal case of the
Python match statement rebinds the accumulator name to the terminal's
range tuple and then calls .append on the tuple, which raises
AttributeError; that crash is modelled by none. -/
def splitTerminals (terminals : List Terminal) : Option (List String × List (Int × Int)) :=
  if terminals.any fun t => t.ranges.isSome then none
  else some (terminals.map fun t => t.sequence.getD "", [])

/-- parser_generator._terminal_to_check -/
def terminalToCheck (d : PDef) (t : Terminal) : String × PDef :=
  match t.ranges, t.sequence with
  | none, none => d.declareInputCheck (.literalCk "")
  | none, some s => d.declareInputCheck (.literalCk s)
  | some rs, _ => d.declareInputCheck (.rangeCk rs)

/-- The distinct terminals occurring in the grammar, preceded by Empty: a
deterministic enumeration order for frozenset iteration (Python set
order is unspecified; every set the builder iterates is a subset of
this list). -/
def CFG.termOrder (g : CFG) : List Terminal :=
  (Terminal.emptyT ::
    g.rules.flatMap fun e => e.2.flatMap fun alt =>
      alt.filterMap fun s => match s with | .t t => some t | _ => none).dedup

/-- parser_generator._test_set_to_checks -/
def testSetToChecks (d : PDef) (g : CFG) (s : Finset Terminal) : List String × PDef :=
  ((g.termOrder.filter fun t => t ∈ s).foldl
    (fun st t =>
      let r := terminalToCheck st.2 t
      (st.1 ++ [r.1], r.2))
    ([], d))

/-- parser_generator._generate_ambiguity_checks for the tags at one grammar
position: returns the updated definition and the inline disambiguation
statements; none models the _split_terminals crash on class payloads. -/
def genAmbiguityChecks (d : PDef) (nt : Nonterminal) (altNum pos : Nat) (g : CFG)
    (tags : TagMap) : Option (PDef × List Stmt) :=
  let slotName := getSlotName nt.name (altNum : Int) ((pos : Int) + 1) false
  (tagsGet tags (nt, altNum, pos)).foldl
    (fun acc tag =>
      match acc with
      | none => none
      | some (d, stmts) =>
        match splitTerminals tag.2 with
        | none => none
        | some (lits, rs) =>
          match tag.1 with
          | .precedeT =>
            let r := d.declareAmbiguity (.precedeC slotName lits rs false)
            some (r.2, stmts ++ [Stmt.disambiguate r.1])
          | .notPrecedeT =>
            let r := d.declareAmbiguity (.precedeC slotName lits rs true)
            some (r.2, stmts ++ [Stmt.disambiguate r.1])
          | .followT =>
            let symbolAtPos := (((g.expansions nt).getD altNum []).getD pos
              (Sym.t Terminal.emptyT))
            let checkInPop := ¬symbolAtPos.isTerminal
            let r := d.declareAmbiguity (.followC slotName lits rs false checkInPop)
            if checkInPop then some (r.2, stmts)
            else some (r.2, stmts ++ [Stmt.disambiguate r.1])
          | .notFollowT =>
            let symbolAtPos := (((g.expansions nt).getD altNum []).getD pos
              (Sym.t Terminal.emptyT))
            let checkInPop := ¬symbolAtPos.isTerminal
            let r := d.declareAmbiguity (.followC slotName lits rs true checkInPop)
            if checkInPop then some (r.2, stmts)
            else some (r.2, stmts ++ [Stmt.disambiguate r.1])
          | .restrictionT =>
            let r := d.declareAmbiguity (.restrictionC slotName lits rs)
            some (r.2, stmts))
    (some (d, []))

/-- ContextFreeGrammar.compute_gll_blocks, inner while-loop: the blocks
from a start position, plus whether the last emitted block ends in a
nonterminal.  Each iteration advances start, so fuel above the
alternative length makes the fuel guard unreachable. -/
def gllGo : Nat → List Sym → Nat → List (Nat × List Sym) × Bool
  | 0, _, _ => ([], false)
  | fuel + 1, alt, start =>
    if start < alt.length then
      let tw := ((alt.drop start).takeWhile Sym.isTerminal).length
      if start + tw = alt.length then
        ([(start, alt.drop start)], false)
      else
        let block := (alt.drop start).take (tw + 1)
        if start + tw + 1 < alt.length then
          let rest := gllGo fuel alt (start + tw + 1)
          ((start, block) :: rest.1, rest.2)
        else ([(start, block)], true)
    else ([], false)

/-- ContextFreeGrammar.compute_gll_blocks: the block list, with the
synthetic empty tail block when the alternative ends in a
nonterminal. -/
def computeGllBlocks (alt : List Sym) : List (Nat × List Sym) :=
  let r := gllGo (alt.length + 1) alt 0
  if r.2 then r.1 ++ [(alt.length, [])] else r.1

/-- parser_generator._generate_gll_block_function together with its
terminal and nonterminal helpers.  The Python helpers return an aliased
(body, inner_body) pair and the caller extends inner_body with the
recursively generated tail; here the tail is computed first and placed
where the alias placed it (inside the conditional when one is
emitted). -/
def genBlockFn (d : PDef) (block : List Sym) (nt : Nonterminal) (altNum pos : Nat)
    (firstSymbol addPop : Bool) (g : CFG) (tags : TagMap) :
    Option (PDef × List Stmt) :=
  match block with
  | [] => if addPop then some (d, [Stmt.invokePop]) else some (d, [])
  | sym :: rest =>
    match sym with
    | .t headT =>
      let r0 := terminalToCheck d headT
      let headCheck := r0.1
      let d := r0.2
      if firstSymbol ∧ rest ≠ [] then
        match genAmbiguityChecks d nt altNum pos g tags with
        | none => none
        | some (d, ambStmts) =>
          match genBlockFn d rest nt altNum (pos + 1) false addPop g tags with
          | none => none
          | some (d, tail) =>
            some (d, ambStmts ++ [Stmt.invokeNodeTCN headCheck] ++ tail)
      else if firstSymbol then
        match genAmbiguityChecks d nt altNum pos g tags with
        | none => none
        | some (d, ambStmts) =>
          let r1 := d.declareSlot nt.name altNum (pos + 1) g false
          match genBlockFn r1.2 rest nt altNum (pos + 1) false addPop g tags with
          | none => none
          | some (d, tail) =>
            some (d, ambStmts ++ [Stmt.invokeNodeTCR headCheck,
              Stmt.invokeNodePCN r1.1] ++ tail)
      else
        let r0b := terminalToCheck d headT
        let d := r0b.2
        match genAmbiguityChecks d nt altNum pos g tags with
        | none => none
        | some (d, ambStmts) =>
          let r1 := d.declareSlot nt.name altNum (pos + 1) g false
          match genBlockFn r1.2 rest nt altNum (pos + 1) false addPop g tags with
          | none => none
          | some (d, tail) =>
            some (d, [Stmt.conditionalCheck [r0b.1]
              (ambStmts ++ [Stmt.invokeNodeTCR headCheck,
                Stmt.invokeNodePCN r1.1] ++ tail)])
    | .nt headB =>
      let guardChecks :=
        if firstSymbol then none
        else some (testSetToChecks d g (g.testSym (Sym.nt headB)))
      let d := match guardChecks with
        | some r => r.2
        | none => d
      match genAmbiguityChecks d nt altNum pos g tags with
      | none => none
      | some (d, ambStmts) =>
        let r1 := d.declareSlot nt.name altNum (pos + 1) g false
        match genBlockFn r1.2 rest nt altNum (pos + 1) false addPop g tags with
        | none => none
        | some (d, tail) =>
          let inner := ambStmts ++ [Stmt.invokeCreate r1.1,
            Stmt.callFunction ("nonterminal_check_" ++ headB.name)] ++ tail
          match guardChecks with
          | some r => some (d, [Stmt.conditionalCheck r.1 inner])
          | none => some (d, inner)

/-- parser_generator._generate_start_function -/
def genStartFunction (d : PDef) (nt : Nonterminal) (g : CFG) : PDef :=
  let r := (g.expansions nt).enum.foldl
    (fun (st : PDef × List Stmt) p =>
      let testSet := g.testForSeq nt p.1 0
      let r1 := st.1.declareSlot nt.name p.1 0 g false
      let r2 := testSetToChecks r1.2 g testSet
      (r2.2, st.2 ++ [Stmt.conditionalCheck r2.1 [Stmt.invokeAdd r1.1]]))
    (d, ([] : List Stmt))
  r.1.addFunction ("nonterminal_check_" ++ nt.name) r.2

/-- parser_generator._generate_functions_for_rules -/
def genFunctionsForRules (d : PDef) (g : CFG) (tags : TagMap) : Option PDef :=
  g.rules.foldl
    (fun acc e =>
      match acc with
      | none => none
      | some d =>
        let d := genStartFunction d e.1 g
        (e.2.enum.foldl
          (fun acc2 altp =>
            match acc2 with
            | none => none
            | some d =>
              let gllBlocks := computeGllBlocks altp.2
              (gllBlocks.enum.foldl
                (fun acc3 bp =>
                  match acc3 with
                  | none => none
                  | some d =>
                    match genBlockFn d bp.2.2 e.1 altp.1 bp.2.1
                        (bp.1 = 0) (bp.1 = gllBlocks.length - 1) g tags with
                    | none => none
                    | some (d, body) =>
                      let functionName :=
                        if bp.1 = 0 then
                          "nonterminal_check_" ++ e.1.name ++ toString altp.1
                        else
                          "nonterminal_check_" ++ e.1.name ++ toString altp.1 ++
                            "_" ++ toString bp.1
                      let d := d.addFunction functionName body
                      let r := d.declareSlot e.1.name altp.1 bp.2.1 g false
                      some (r.2.addGoto r.1 functionName))
                (some d)))
          (some d)))
    (some d)

/-- parser_generator._generate_start_nonterminal_functions -/
def genStartNonterminalFunctions (d : PDef) (g : CFG) : PDef :=
  let r1 := d.declareSlot g.start.name 0 0 g true
  let d1 := { r1.2 with initialStart := some r1.1 }
  let r2 := d1.declareSlot g.start.name 0 1 g true
  let d2 := { r2.2 with initialEnd := some r2.1 }
  d2.addGoto r1.1 ("nonterminal_check_" ++ g.start.name)

/-- parser_generator.generate_parser: the full IR builder. -/
def generateParserIR (g : CFG) (tags : TagMap) : Option PDef :=
  genFunctionsForRules (genStartNonterminalFunctions PDef.emptyP g) g tags

/-- The registration of in-pop checks performed by
_InterpretedParser.__init__ (interpreter.py lines 28-35): every
ambiguity check whose as_pop_check() is true is indexed under the
runtime slot obtained from the grammar-slot table entry named by its
slot field. -/
def checksBySlot (d : PDef) : List (GrammarSlot × List String) :=
  d.ambiguityChecks.foldl
    (fun acc e =>
      if e.2.asPopCheck then
        match d.grammarSlots.find? fun se => se.1 = e.2.slotA with
        | some se =>
          if acc.any fun a => a.1 = se.2.toSlot then
            acc.map fun a => if a.1 = se.2.toSlot then (a.1, a.2 ++ [e.1]) else a
          else acc ++ [(se.2.toSlot, [e.1])]
        | none => acc
      else acc)
    []

/-- _InterpretedParser.get_ambiguity_checks_for_slot -/
def getAmbiguityChecksForSlot (d : PDef) (slot : GrammarSlot) : List String :=
  (((checksBySlot d).find? fun a => a.1 = slot).map fun a => a.2).getD []

/-! ### Method-name level facts for the runtime glue (claim C1)

The Python abc machinery refuses to instantiate a subclass that leaves
any abstract method unimplemented; these lists transcribe the method
names declared by the classes in src/pygll/core. -/

/-- The methods of AbstractParser marked abstractmethod
(core/base.py lines 335-349). -/
def abstractParserAbstractMethods : List String :=
  ["goto", "get_initial_grammar_slot", "get_start_nonterminal", "get_final_slots"]

/-- The methods defined by _InterpretedParser (core/interpreter.py). -/
def interpretedParserMethods : List String :=
  ["__init__", "goto", "goto_name", "__emulate_function", "__emulate",
   "__emulate_input_check", "__emulate_disambiguation_check", "__emulate_pop_check",
   "__emulate_range_or_literal_check", "get_ambiguity_checks_for_slot",
   "get_initial_slot", "get_final_slot", "__definition_to_slot", "__slot_to_name"]

/-- Python ABC instantiation rule: a subclass of AbstractParser can be
constructed only if it overrides every abstract method. -/
def canInstantiateInterpretedParser : Bool :=
  abstractParserAbstractMethods.all fun m => interpretedParserMethods.contains m

/-- The methods defined by Scanner (core/scanner.py). -/
def scannerMethods : List String :=
  ["__init__", "register_callback", "__invoke_callbacks", "position",
   "has_next", "peek", "reached_eoi", "get_next"]

/-- The Scanner attributes invoked by _InterpretedParser on self.scanner
(core/interpreter.py). -/
def scannerMethodsUsedByInterpreter : List String :=
  ["advance", "peek", "has_next", "peek_backward", "peek_forward", "position"]

/-! ### Specification-side predicates -/

/-- The least set of nullable nonterminals: a nonterminal is nullable iff
some alternative of its rule consists entirely of Empty terminals and
nullable nonterminals (the inductive predicate is the least such
set). -/
inductive SpecNullable (g : CFG) : Nonterminal → Prop where
  | intro (A : Nonterminal) (alt : Alternative)
      (hmem : ∃ e ∈ g.rules, e.1 = A ∧ alt ∈ e.2)
      (hterm : ∀ s ∈ alt, ∀ t, s = Sym.t t → t.isEmptyT = true)
      (hnts : ∀ s ∈ alt, ∀ B, s = Sym.nt B → SpecNullable g B) :
      SpecNullable g A

/-- A closed integer range is well formed when its bounds are ordered. -/
def wfRange (r : Int × Int) : Prop := r.1 ≤ r.2

/-- A range lies inside the universe. -/
def inUniverse (u r : Int × Int) : Prop := u.1 ≤ r.1 ∧ r.2 ≤ u.2

instance (r : Int × Int) : Decidable (wfRange r) := by unfold wfRange; infer_instance

instance (u r : Int × Int) : Decidable (inUniverse u r) := by
  unfold inUniverse; infer_instance

/-- Two ranges are separated when they are disjoint and not adjacent
(exactly the condition under which IntSet.__union keeps them apart). -/
def SepRanges (a b : Int × Int) : Prop :=
  (a.2 < b.1 ∨ a.1 > b.2) ∧ ¬(a.2 + 1 = b.1 ∨ b.2 + 1 = a.1)

instance : DecidableRel SepRanges := fun a b => by unfold SepRanges; infer_instance

/-- The representation invariant of an IntSet: ordered universe; stored
ranges well formed, inside the universe, sorted, pairwise disjoint and
non-adjacent. -/
def IntSet.Inv (s : IntSet) : Prop :=
  s.universeI.1 ≤ s.universeI.2 ∧
  (∀ r ∈ s.content, wfRange r ∧ inUniverse s.universeI r) ∧
  s.content.Sorted rangeLe ∧
  s.content.Pairwise SepRanges

instance (s : IntSet) : Decidable s.Inv := by
  unfold IntSet.Inv List.Sorted; infer_instance

/-- The rotation invariant of the IntSet.__union while-loop: the last k
positions are pairwise separated and separated from every earlier
element (a full round of unchanged passes certifies exactly this). -/
def TailSep (l : List (Int × Int)) (k : Nat) : Prop :=
  (l.drop (l.length - k)).Pairwise SepRanges ∧
  ∀ a ∈ l.take (l.length - k), ∀ b ∈ l.drop (l.length - k), SepRanges a b

/-- The per-entry children dictionaries of the created table have at most
one packed node per PackedNodeKey. -/
def wfCreated (c : Created) : Prop :=
  ∀ e ∈ c, e.2.Pairwise fun a b => a.1 ≠ b.1

/-- Proof auxiliary: the union of the first-sets minus Empty along a
sequence of symbols (the value both sequence walks accumulate when no
break occurs). -/
def unionF (g : CFG) : List Sym → Finset Terminal
  | [] => ∅
  | s :: rest => (g.first s \ {Terminal.emptyT}) ∪ unionF g rest

/-! ### Concrete instances used by counterexamples and witnesses -/

/-- Grammar with a null-only suffix of length two: S → A 'b'; A → ε ε. -/
def gNullOnly : CFG :=
  ⟨⟨"S"⟩, [(⟨"S"⟩, [[Sym.nt ⟨"A"⟩, Sym.t (Terminal.lit "b")]]),
            (⟨"A"⟩, [[Sym.t Terminal.emptyT, Sym.t Terminal.emptyT]])]⟩

/-- Grammar with a nullable-prefixed chain: A → B 'c'; B → ε. -/
def gEpsChain : CFG :=
  ⟨⟨"A"⟩, [(⟨"A"⟩, [[Sym.nt ⟨"B"⟩, Sym.t (Terminal.lit "c")]]),
            (⟨"B"⟩, [[Sym.t Terminal.emptyT]])]⟩

/-- Grammar S → B B; B → 'b' used with two same-payload restriction tags at
(S,0,0) and (S,0,1). -/
def gTwoTags : CFG :=
  ⟨⟨"S"⟩, [(⟨"S"⟩, [[Sym.nt ⟨"B"⟩, Sym.nt ⟨"B"⟩]]),
            (⟨"B"⟩, [[Sym.t (Terminal.lit "b")]])]⟩

def tTwoTags : TagMap :=
  [((⟨"S"⟩, 0, 0), [(TagKind.restrictionT, [Terminal.lit "a"])]),
   ((⟨"S"⟩, 0, 1), [(TagKind.restrictionT, [Terminal.lit "a"])])]

/-- The restriction-tag scenario of pygll_tests/test_restriction.py:
S → 'x' T 'y'; T → 'a' | 'b' | 'c' with restriction {'a','b'} at
(S,0,1). -/
def gRestrict : CFG :=
  ⟨⟨"S"⟩, [(⟨"S"⟩, [[Sym.t (Terminal.lit "x"), Sym.nt ⟨"T"⟩,
                      Sym.t (Terminal.lit "y")]]),
            (⟨"T"⟩, [[Sym.t (Terminal.lit "a")], [Sym.t (Terminal.lit "b")],
                     [Sym.t (Terminal.lit "c")]])]⟩

def tRestrict : TagMap :=
  [((⟨"S"⟩, 0, 1), [(TagKind.restrictionT, [Terminal.lit "a", Terminal.lit "b"])])]

/-- The parser IR the builder produces for the restriction scenario. -/
def dRestrict : PDef := (generateParserIR gRestrict tRestrict).getD PDef.emptyP

/-- The runtime slot (S, 0, 2): the return slot the restriction check is
registered against. -/
def slotSidx2 : GrammarSlot := ⟨"S", 0, 2, false, false⟩

/-- A parse state of the restriction scenario just before popping the
completed T: the stack top is the GSS node for slot (S,0,2) created at
input position 1, with one outgoing edge to the root labelled by the
terminal node for the consumed 'x'; the current SPPF node is the
completed T over input[1..2] and the scanner sits at position 2. -/
def stRestrict : PState :=
  { todo := [], seen := [], popped := [], created := [], terminalNodes := [],
    gss := ⟨[⟨slotSidx2, 1⟩], [((⟨slotSidx2, 1⟩, rootRef), PNode.term 0 1 "x")]⟩,
    cu := ⟨slotSidx2, 1⟩,
    cn := PNode.inter 1 2 ⟨"T", 0, 1, true, true⟩ true,
    cr := none, pos := 2 }

/-!
# Theorems

Helper lemmas first, then one theorem per claim (with witnesses and
counterexamples where the statuses require them).
-/

/-! ### Helper lemmas about IntermediateNodeKey equality (C3, C4) -/

theorem ikeyEq_refl (a : IntermediateNodeKey) : ikeyEq a a = true := by
  unfold ikeyEq
  rcases h : a.isNonterminalNode <;> simp [h]

theorem ikeyEq_extents {a b : IntermediateNodeKey} (h : ikeyEq a b = true) :
    a.leftExtent = b.leftExtent ∧ a.rightExtent = b.rightExtent := by
  unfold ikeyEq at h
  rcases hA : a.isNonterminalNode <;> rcases hB : b.isNonterminalNode <;>
    simp [hA, hB] at h
  · exact ⟨h.1.2, h.2⟩
  · exact ⟨h.1.2, h.2⟩

theorem ikeyEq_trans_key {a b k : IntermediateNodeKey} (h1 : ikeyEq a k = true)
    (h2 : ikeyEq b k = true) : ikeyEq a b = true := by
  unfold ikeyEq at h1 h2 ⊢
  rcases hA : a.isNonterminalNode <;> rcases hB : b.isNonterminalNode <;>
    rcases hK : k.isNonterminalNode <;> simp [hA, hB, hK] at h1 h2 ⊢
  all_goals
    exact ⟨⟨h1.1.1.trans h2.1.1.symm, h1.1.2.trans h2.1.2.symm⟩, h1.2.trans h2.2.symm⟩

theorem lookupCreated_cons
    (f : IntermediateNodeKey × List (PackedNodeKey × PackedNode)) (rest : Created)
    (k : IntermediateNodeKey) :
    lookupCreated (f :: rest) k =
      if ikeyEq f.1 k = true then some f else lookupCreated rest k := by
  unfold lookupCreated
  by_cases h : ikeyEq f.1 k = true
  · rw [if_pos h]; exact List.find?_cons_of_pos rest h
  · rw [if_neg h]; exact List.find?_cons_of_neg rest h

theorem lookupCreated_isSome_iff (c : Created) (k : IntermediateNodeKey) :
    (∃ e ∈ c, ikeyEq e.1 k = true) ↔ (lookupCreated c k).isSome := by
  unfold lookupCreated
  rw [List.find?_isSome]

theorem lookupCreated_eq_of_mem {c : Created} {k : IntermediateNodeKey}
    (hdist : c.Pairwise fun a b => ikeyEq a.1 b.1 = false)
    {e : IntermediateNodeKey × List (PackedNodeKey × PackedNode)}
    (he : e ∈ c) (hk : ikeyEq e.1 k = true) : lookupCreated c k = some e := by
  induction c with
  | nil => cases he
  | cons f rest ih =>
    rcases List.pairwise_cons.mp hdist with ⟨hf, hrest⟩
    rw [lookupCreated_cons]
    by_cases hfk : ikeyEq f.1 k = true
    · rw [if_pos hfk]
      rcases List.mem_cons.mp he with he | he
      · rw [he]
      · exact absurd (ikeyEq_trans_key hfk hk) (by simp [hf e he])
    · rw [if_neg hfk]
      rcases List.mem_cons.mp he with he | he
      · exact absurd (he ▸ hk) hfk
      · exact ih hrest he

theorem lookupCreated_eq_none {c : Created} {k : IntermediateNodeKey}
    (h : ∀ e ∈ c, ikeyEq e.1 k = false) : lookupCreated c k = none := by
  unfold lookupCreated
  rw [List.find?_eq_none]
  intro e he
  simp [h e he]

/-- Claim C1: the spec says a parse of w under G returns a non-null root
iff w is in L(G).  The runtime glue cannot produce any root:
_InterpretedParser never overrides the abstract methods
get_initial_grammar_slot, get_start_nonterminal and get_final_slots that
AbstractParser.__init__ requires (it defines get_initial_slot and
get_final_slot instead), so Python ABC instantiation fails before any
input is read; independently, Scanner lacks the advance, peek_forward
and peek_backward methods the interpreter invokes. -/
theorem claim_C1 :
    canInstantiateInterpretedParser = false ∧
    "get_initial_grammar_slot" ∈ abstractParserAbstractMethods ∧
    "get_initial_grammar_slot" ∉ interpretedParserMethods ∧
    "get_start_nonterminal" ∉ interpretedParserMethods ∧
    "get_final_slots" ∉ interpretedParserMethods ∧
    "advance" ∈ scannerMethodsUsedByInterpreter ∧
    "advance" ∉ scannerMethods ∧
    "peek_forward" ∈ scannerMethodsUsedByInterpreter ∧
    "peek_forward" ∉ scannerMethods ∧
    "peek_backward" ∉ scannerMethods := by decide

/-- Claim C3: on an empty worklist the parse is successful iff created
contains an intermediate node keyed by the nonterminal slot of the start
symbol (is_nonterminal_node true, comparing by nonterminal name) with
extents (0, |input|); in that case result is exactly the stored node,
and otherwise requesting the result raises the parse-failure error with
no partial tree. -/
theorem claim_C3 (created : Created) (fslot : GrammarSlot) (n : Nat)
    (hdist : created.Pairwise fun a b => ikeyEq a.1 b.1 = false) :
    ((∃ e ∈ created, ikeyEq e.1 ⟨fslot, true, 0, n⟩ = true) ↔
      ∃ v, resultOrError created fslot n = Except.ok v) ∧
    (∀ e ∈ created, ikeyEq e.1 ⟨fslot, true, 0, n⟩ = true →
      resultOrError created fslot n = Except.ok
        (PNode.inter e.1.leftExtent e.1.rightExtent e.1.slot e.1.isNonterminalNode)) ∧
    ((∀ e ∈ created, ikeyEq e.1 ⟨fslot, true, 0, n⟩ = false) →
      resultOrError created fslot n = Except.error "Failed to parse") := by
  have hok : ∀ e ∈ created, ikeyEq e.1 ⟨fslot, true, 0, n⟩ = true →
      resultOrError created fslot n = Except.ok
        (PNode.inter e.1.leftExtent e.1.rightExtent e.1.slot e.1.isNonterminalNode) := by
    intro e he hk
    unfold resultOrError parseResult
    rw [lookupCreated_eq_of_mem hdist he hk]
    rfl
  refine ⟨⟨?_, ?_⟩, hok, ?_⟩
  · rintro ⟨e, he, hk⟩
    exact ⟨_, hok e he hk⟩
  · rintro ⟨v, hv⟩
    unfold resultOrError parseResult at hv
    rcases hl : lookupCreated created ⟨fslot, true, 0, n⟩ with _ | e
    · rw [hl] at hv; cases hv
    · unfold lookupCreated at hl
      have h3 := List.find?_some hl
      exact ⟨e, List.mem_of_find?_eq_some hl, h3⟩
  · intro hnone
    unfold resultOrError parseResult
    rw [lookupCreated_eq_none hnone]
    rfl

/-- Witness for claim C3 at a concrete created table. -/
theorem claim_C3_witness :
    ([(⟨⟨"S", -1, 1, false, true⟩, true, 0, 2⟩,
        ([] : List (PackedNodeKey × PackedNode)))] : Created).Pairwise
      (fun a b => ikeyEq a.1 b.1 = false) ∧
    resultOrError
      [(⟨⟨"S", -1, 1, false, true⟩, true, 0, 2⟩, [])] ⟨"S", 0, 0, false, false⟩ 2 =
      Except.ok (PNode.inter 0 2 ⟨"S", -1, 1, false, true⟩ true) := by
  refine ⟨by decide, ?_⟩
  exact
    (claim_C3 [(⟨⟨"S", -1, 1, false, true⟩, true, 0, 2⟩, [])]
      ⟨"S", 0, 0, false, false⟩ 2 (by decide)).2.1
      (⟨⟨"S", -1, 1, false, true⟩, true, 0, 2⟩, []) (by decide) (by decide)

/-! ### Helper lemmas for get_node_p (C4) -/

theorem modifyCreated_lookup {c : Created} {k : IntermediateNodeKey}
    {e : IntermediateNodeKey × List (PackedNodeKey × PackedNode)}
    (hl : lookupCreated c k = some e)
    (f : List (PackedNodeKey × PackedNode) → List (PackedNodeKey × PackedNode)) :
    lookupCreated (modifyCreated c k f) k = some (e.1, f e.2) := by
  induction c with
  | nil => simp [lookupCreated] at hl
  | cons g rest ih =>
    rw [lookupCreated_cons] at hl
    unfold modifyCreated
    by_cases hg : ikeyEq g.1 k = true
    · rw [if_pos hg] at hl
      rw [if_pos hg, lookupCreated_cons]
      cases hl
      simp [hg]
    · rw [if_neg hg] at hl
      rw [if_neg hg, lookupCreated_cons, if_neg hg]
      exact ih hl

theorem modifyCreated_eq {c : Created} {k : IntermediateNodeKey}
    {e : IntermediateNodeKey × List (PackedNodeKey × PackedNode)}
    (hl : lookupCreated c k = some e)
    (f : List (PackedNodeKey × PackedNode) → List (PackedNodeKey × PackedNode)) :
    ∃ pre post, c = pre ++ e :: post ∧
      modifyCreated c k f = pre ++ (e.1, f e.2) :: post := by
  induction c with
  | nil => simp [lookupCreated] at hl
  | cons g rest ih =>
    rw [lookupCreated_cons] at hl
    unfold modifyCreated
    by_cases hg : ikeyEq g.1 k = true
    · rw [if_pos hg] at hl
      cases hl
      exact ⟨[], rest, rfl, by rw [if_pos hg]; rfl⟩
    · rw [if_neg hg] at hl
      rcases ih hl with ⟨pre, post, hc, hm⟩
      refine ⟨g :: pre, post, by rw [hc]; rfl, ?_⟩
      rw [if_neg hg, hm]
      rfl

theorem wfCreated_modify {c : Created} {k : IntermediateNodeKey}
    {e : IntermediateNodeKey × List (PackedNodeKey × PackedNode)}
    (hwf : wfCreated c) (hl : lookupCreated c k = some e)
    (p : PackedNodeKey × PackedNode) (hnp : ∀ x ∈ e.2, x.1 ≠ p.1) :
    wfCreated (modifyCreated c k (fun ch => ch ++ [p])) := by
  rcases modifyCreated_eq hl (fun ch => ch ++ [p]) with ⟨pre, post, hc, hm⟩
  intro y hy
  rw [hm] at hy
  rcases List.mem_append.mp hy with hy | hy
  · exact hwf y (hc ▸ List.mem_append.mpr (Or.inl hy))
  · rcases List.mem_cons.mp hy with rfl | hy
    · simp only
      rw [List.pairwise_append]
      have he : e ∈ c := hc ▸ List.mem_append.mpr (Or.inr (List.mem_cons_self e post))
      refine ⟨hwf e he, List.pairwise_singleton _ _, ?_⟩
      intro a ha b hb
      rcases List.mem_singleton.mp hb with rfl
      exact hnp a ha
    · exact hwf y (hc ▸ List.mem_append.mpr (Or.inr (List.mem_cons_of_mem e hy)))

/-- Claim C4: get_node_p returns right unchanged for an alpha-special,
non-beta-special slot; otherwise it canonicalizes in created an
intermediate node whose left extent is right's left extent when left is
Initial (left's otherwise) and whose right extent is right's right
extent, keeps at most one packed child per (slot, split), ensures the
packed child keyed by (slot, split) with split = right's left extent
when left is Initial (left's right extent otherwise); and two
intermediate-node keys with beta_special compare (and hash) equal
whenever they agree on nonterminal name and both extents, regardless of
alternative index or dot position. -/
theorem claim_C4 (slot : GrammarSlot) (left right : PNode) (c : Created)
    (hwf : wfCreated c) :
    (slot.alphaIsSpecial = true → slot.betaIsSpecial = false →
      getNodeP slot left right c = (right, c)) ∧
    (¬(slot.alphaIsSpecial = true ∧ slot.betaIsSpecial = false) →
      (getNodeP slot left right c).1.leftExtent =
          (if left.isInitial then right.leftExtent else left.leftExtent) ∧
      (getNodeP slot left right c).1.rightExtent = right.rightExtent ∧
      wfCreated (getNodeP slot left right c).2 ∧
      ∃ e, lookupCreated (getNodeP slot left right c).2
          ⟨slot, slot.betaIsSpecial,
            if left.isInitial then right.leftExtent else left.leftExtent,
            right.rightExtent⟩ = some e ∧
        (⟨slot, if left.isInitial then right.leftExtent else left.rightExtent⟩ :
          PackedNodeKey) ∈ e.2.map Prod.fst) ∧
    (∀ k1 k2 : IntermediateNodeKey, k1.isNonterminalNode = true →
      k2.isNonterminalNode = true →
      k1.slot.nonterminal = k2.slot.nonterminal →
      k1.leftExtent = k2.leftExtent → k1.rightExtent = k2.rightExtent →
      ikeyEq k1 k2 = true ∧ ikeyHashKey k1 = ikeyHashKey k2) := by
  refine ⟨?_, ?_, ?_⟩
  · intro ha hb
    unfold getNodeP
    rw [if_pos ⟨ha, by simp [hb]⟩]
  · intro hns
    have hns2 : ¬(slot.alphaIsSpecial = true ∧ ¬slot.betaIsSpecial = true) := by
      simpa using hns
    unfold getNodeP
    rw [if_neg hns2]
    simp only
    set key : IntermediateNodeKey :=
      ⟨slot, slot.betaIsSpecial,
        if left.isInitial then right.leftExtent else left.leftExtent,
        right.rightExtent⟩ with hkey
    set pkey : PackedNodeKey :=
      ⟨slot, if left.isInitial then right.leftExtent else left.rightExtent⟩ with hpkey
    rcases hl : lookupCreated c key with _ | e
    · simp only
      have hext : ikeyEq key key = true := ikeyEq_refl key
      have hlk : lookupCreated (c ++ [(key, [(pkey,
          ⟨if left.isInitial then right.leftExtent else left.leftExtent,
            right.rightExtent, slot,
            if left.isInitial then right.leftExtent else left.rightExtent,
            if left.isInitial then none else some left, right⟩)])]) key =
          some (key, [(pkey,
          ⟨if left.isInitial then right.leftExtent else left.leftExtent,
            right.rightExtent, slot,
            if left.isInitial then right.leftExtent else left.rightExtent,
            if left.isInitial then none else some left, right⟩)]) := by
        unfold lookupCreated at hl ⊢
        rw [List.find?_append, hl]
        simp [ikeyEq_refl]
      refine ⟨rfl, rfl, ?_, ?_⟩
      · intro e he
        rcases List.mem_append.mp he with he | he
        · exact hwf e he
        · rcases List.mem_singleton.mp he with rfl
          simp
      · exact ⟨_, hlk, by simp⟩
    · have hkeq : ikeyEq e.1 key = true := by
        have h2 := hl
        unfold lookupCreated at h2
        have h3 := List.find?_some h2
        exact h3
      have hext := ikeyEq_extents hkeq
      by_cases hany : (e.2.any fun ch => ch.1 = pkey) = true
      · simp only [hany, if_true]
        refine ⟨hext.1, hext.2, hwf, e, hl, ?_⟩
        rcases List.any_eq_true.mp hany with ⟨x, hx, hxp⟩
        have hx1 : x.1 = pkey := by simpa using hxp
        exact hx1 ▸ List.mem_map_of_mem Prod.fst hx
      · simp only [hany, if_false, Bool.false_eq_true]
        refine ⟨hext.1, hext.2, ?_, ?_⟩
        · refine wfCreated_modify hwf hl _ ?_
          intro x hx hxp
          rw [List.any_eq_true] at hany
          exact hany ⟨x, hx, by simp [hxp]⟩
        · exact ⟨_, modifyCreated_lookup hl _, by simp⟩
  · intro k1 k2 h1 h2 hn hl2 hr
    constructor
    · unfold ikeyEq
      simp [h1, h2, hn, hl2, hr]
    · unfold ikeyHashKey
      simp [h1, h2, hn, hl2, hr]

/-- Witness for claim C4 at concrete slots and nodes. -/
theorem claim_C4_witness :
    getNodeP ⟨"S", 0, 1, true, false⟩ (PNode.initial 0 0) (PNode.term 0 1 "a") [] =
      (PNode.term 0 1 "a", []) ∧
    (getNodeP ⟨"S", 0, 2, false, true⟩ (PNode.term 0 1 "a")
      (PNode.term 1 2 "b") []).1.rightExtent = 2 :=
  ⟨(claim_C4 ⟨"S", 0, 1, true, false⟩ (PNode.initial 0 0) (PNode.term 0 1 "a") []
      (by intro e he; cases he)).1 rfl rfl,
   ((claim_C4 ⟨"S", 0, 2, false, true⟩ (PNode.term 0 1 "a") (PNode.term 1 2 "b") []
      (by intro e he; cases he)).2.1 (by decide)).2.1⟩

/-! ### Helper lemmas for the GSS (C10) -/

theorem add_gss (st : PState) (g : GrammarSlot) (stack : GSSRef) (p : Nat)
    (n : PNode) : (st.add g stack p n).gss = st.gss := by
  unfold PState.add
  dsimp only
  split <;> rfl

theorem add_cu (st : PState) (g : GrammarSlot) (stack : GSSRef) (p : Nat)
    (n : PNode) : (st.add g stack p n).cu = st.cu := by
  unfold PState.add
  dsimp only
  split <;> rfl

theorem add_cn (st : PState) (g : GrammarSlot) (stack : GSSRef) (p : Nat)
    (n : PNode) : (st.add g stack p n).cn = st.cn := by
  unfold PState.add
  dsimp only
  split <;> rfl

theorem nodeP_gss (st : PState) (sl : GrammarSlot) (l r : PNode) :
    (st.nodeP sl l r).2.gss = st.gss := rfl

theorem nodeP_cu (st : PState) (sl : GrammarSlot) (l r : PNode) :
    (st.nodeP sl l r).2.cu = st.cu := rfl

theorem nodeP_cn (st : PState) (sl : GrammarSlot) (l r : PNode) :
    (st.nodeP sl l r).2.cn = st.cn := rfl

theorem getNodeT_gss (st : PState) (ch : String) :
    (st.getNodeT ch).2.gss = st.gss := by
  unfold PState.getNodeT
  dsimp only
  split <;> rfl

theorem foldCreate_gss (l : List PNode) (sl : GrammarSlot) (s0 : PState) :
    ((l.foldl (fun s z => (s.nodeP sl s.cn z).2.add sl s.cu z.rightExtent
      (s.nodeP sl s.cn z).1) s0)).gss = s0.gss := by
  induction l generalizing s0 with
  | nil => rfl
  | cons x rest ih =>
    rw [List.foldl_cons, ih]
    rw [add_gss, nodeP_gss]

theorem foldPop_gss (l : List (GSSRef × PNode)) (sl : GrammarSlot) (cn : PNode)
    (p : Nat) (s0 : PState) :
    ((l.foldl (fun s e => (s.nodeP sl e.2 cn).2.add sl e.1 p
      (s.nodeP sl e.2 cn).1) s0)).gss = s0.gss := by
  induction l generalizing s0 with
  | nil => rfl
  | cons x rest ih =>
    rw [List.foldl_cons, ih]
    rw [add_gss, nodeP_gss]

theorem addNode_edges (g : GSS) (ref : GSSRef) :
    (g.addNode ref).edges = g.edges := rfl

theorem getChildren_iff (g : GSS) (ref c : GSSRef) :
    c ∈ g.getChildren ref ↔ ∃ lb, ((ref, c), lb) ∈ g.edges := by
  unfold GSS.getChildren
  rw [List.mem_filterMap]
  constructor
  · rintro ⟨e, he, hsome⟩
    by_cases h1 : e.1.1 = ref
    · rw [if_pos h1] at hsome
      injection hsome with h2
      subst h1
      subst h2
      exact ⟨e.2, he⟩
    · rw [if_neg h1] at hsome
      cases hsome
  · rintro ⟨lb, hlb⟩
    exact ⟨((ref, c), lb), hlb, by simp⟩

theorem create_edges (st : PState) (slot : GrammarSlot) :
    ((st.create slot).2.gss.edges = st.gss.edges) ∨
    ((st.create slot).2.gss.edges =
        st.gss.edges ++ [((⟨slot, st.pos⟩, st.cu), st.cn)] ∧
      ∀ lb, ((⟨slot, st.pos⟩, st.cu), lb) ∉ st.gss.edges) := by
  unfold PState.create
  dsimp only
  by_cases hcont : st.gss.containsNode ⟨slot, st.pos⟩ = true
  · rw [if_pos hcont]
    by_cases hguard : st.cu ∈ st.gss.getChildren ⟨slot, st.pos⟩
    · rw [if_pos hguard]
      exact Or.inl rfl
    · rw [if_neg hguard]
      dsimp only
      right
      rw [foldCreate_gss]
      have hno : ¬ (st.gss.edges.any fun e => e.1 = (⟨slot, st.pos⟩, st.cu)) = true := by
        intro hc
        rcases List.any_eq_true.mp hc with ⟨e, he, hep⟩
        have hep2 : e.1 = (⟨slot, st.pos⟩, st.cu) := by simpa using hep
        exact hguard ((getChildren_iff st.gss ⟨slot, st.pos⟩ st.cu).mpr
          ⟨e.2, by rw [← hep2]; exact he⟩)
      unfold GSS.addEdge
      rw [if_neg hno]
      refine ⟨rfl, ?_⟩
      intro lb hlb
      exact hguard ((getChildren_iff st.gss ⟨slot, st.pos⟩ st.cu).mpr ⟨lb, hlb⟩)
  · rw [if_neg hcont]
    dsimp only
    by_cases hguard : st.cu ∈ (st.gss.addNode ⟨slot, st.pos⟩).getChildren ⟨slot, st.pos⟩
    · rw [if_pos hguard]
      exact Or.inl rfl
    · rw [if_neg hguard]
      dsimp only
      right
      rw [foldCreate_gss]
      have hguard2 : ¬ st.cu ∈ st.gss.getChildren ⟨slot, st.pos⟩ := by
        intro hc
        apply hguard
        rcases (getChildren_iff st.gss ⟨slot, st.pos⟩ st.cu).mp hc with ⟨lb, hlb⟩
        exact (getChildren_iff (st.gss.addNode ⟨slot, st.pos⟩) ⟨slot, st.pos⟩ st.cu).mpr
          ⟨lb, hlb⟩
      have hno : ¬ ((st.gss.addNode ⟨slot, st.pos⟩).edges.any
          fun e => e.1 = (⟨slot, st.pos⟩, st.cu)) = true := by
        intro hc
        rcases List.any_eq_true.mp hc with ⟨e, he, hep⟩
        have hep2 : e.1 = (⟨slot, st.pos⟩, st.cu) := by simpa using hep
        exact hguard2 ((getChildren_iff st.gss ⟨slot, st.pos⟩ st.cu).mpr
          ⟨e.2, by rw [← hep2]; exact he⟩)
      unfold GSS.addEdge
      rw [if_neg hno]
      refine ⟨rfl, ?_⟩
      intro lb hlb
      exact hguard2 ((getChildren_iff st.gss ⟨slot, st.pos⟩ st.cu).mpr ⟨lb, hlb⟩)

/-- Claim C10: for every ordered pair of GSS node references there is at
most one edge (the edge-key list stays duplicate-free), and the SPPF
label on an edge never changes once inserted: create adds an edge only
when the current stack top is not already a successor of the reference
(so every pre-existing (pair, label) entry survives unchanged), and no
other runtime operation writes edges or labels. -/
theorem claim_C10 (st : PState) (slot : GrammarSlot)
    (hnodup : (st.gss.edges.map Prod.fst).Nodup) :
    (((st.create slot).2.gss.edges.map Prod.fst).Nodup ∧
      ∀ e ∈ st.gss.edges, e ∈ (st.create slot).2.gss.edges) ∧
    st.pop.gss = st.gss ∧
    (∀ g stack p n, (st.add g stack p n).gss = st.gss) ∧
    (∀ sl l r, (st.nodeP sl l r).2.gss = st.gss) ∧
    (∀ ch, (st.getNodeT ch).2.gss = st.gss) := by
  refine ⟨?_, ?_, fun g stack p n => add_gss st g stack p n,
    fun sl l r => nodeP_gss st sl l r, fun ch => getNodeT_gss st ch⟩
  · rcases create_edges st slot with h | ⟨h, hfresh⟩
    · rw [h]
      exact ⟨hnodup, fun e he => he⟩
    · rw [h]
      constructor
      · rw [List.map_append]
        rw [List.nodup_append]
        refine ⟨hnodup, by simp, ?_⟩
        intro a ha hb
        simp only [List.map_cons, List.map_nil, List.mem_singleton] at hb
        subst hb
        rcases List.mem_map.mp ha with ⟨e, he, hc⟩
        have : ((⟨slot, st.pos⟩, st.cu), e.2) ∈ st.gss.edges := by
          rw [← hc]
          exact he
        exact hfresh e.2 this
      · intro e he
        exact List.mem_append.mpr (Or.inl he)
  · unfold PState.pop
    dsimp only
    split
    · rfl
    · rw [foldPop_gss]

/-- Witness for claim C10 at a concrete state. -/
theorem claim_C10_witness :
    ((stRestrict.gss.edges.map Prod.fst).Nodup) ∧
    stRestrict.pop.gss = stRestrict.gss ∧
    ∀ e ∈ stRestrict.gss.edges,
      e ∈ (stRestrict.create nullSlot).2.gss.edges := by
  refine ⟨by decide, ?_, ?_⟩
  · exact (claim_C10 stRestrict nullSlot (by decide)).2.1
  · exact (claim_C10 stRestrict nullSlot (by decide)).1.2

/-! ### Claim C2: in-pop ambiguity checks -/

/-- Claim C2 (code-bug evidence): for the restriction scenario the IR
builder registers the restriction check against the return slot (S,0,2)
as an in-pop check, and the checks-by-slot table of the generated
definition maps that slot to the check name; yet AbstractParser.pop, run
on a state whose stack top is a non-root GSS node for that very slot,
unconditionally enqueues the continuation descriptor for its outgoing
edge — no ambiguity check is consulted anywhere in pop. -/
theorem claim_C2 :
    getAmbiguityChecksForSlot dRestrict slotSidx2 =
      ["terminal_check_restriction__a__b"] ∧
    stRestrict.cu.slot = slotSidx2 ∧
    stRestrict.cu ≠ rootRef ∧
    stRestrict.pop.todo =
      [⟨slotSidx2, rootRef, 2, PNode.inter 0 2 slotSidx2 false⟩] := by
  decide

/-! ### Claim C8: termination of the main loop (helper lemmas) -/

theorem addDescriptor_measure {D σ : Type} [DecidableEq D] (U : Finset D)
    (st : LoopState D σ) (d : D) (hU : st.seen ⊆ U) (hd : d ∈ U) :
    (addDescriptor d st).todo.length + (U.card - (addDescriptor d st).seen.card)
      = st.todo.length + (U.card - st.seen.card) ∧
    (addDescriptor d st).seen ⊆ U := by
  unfold addDescriptor
  by_cases h : d ∈ st.seen
  · rw [if_pos h]
    exact ⟨rfl, hU⟩
  · rw [if_neg h]
    have h1 : (insert d st.seen).card = st.seen.card + 1 :=
      Finset.card_insert_of_not_mem h
    have hsub : insert d st.seen ⊆ U := Finset.insert_subset hd hU
    have h2 : (insert d st.seen).card ≤ U.card := Finset.card_le_card hsub
    refine ⟨?_, hsub⟩
    simp only [List.length_append, List.length_singleton, h1]
    omega

theorem foldAdd_measure {D σ : Type} [DecidableEq D] (U : Finset D) (ds : List D)
    (hds : ∀ d ∈ ds, d ∈ U) (st : LoopState D σ) (hU : st.seen ⊆ U) :
    (ds.foldl (fun s d2 => addDescriptor d2 s) st).todo.length +
      (U.card - (ds.foldl (fun s d2 => addDescriptor d2 s) st).seen.card)
      = st.todo.length + (U.card - st.seen.card) ∧
    (ds.foldl (fun s d2 => addDescriptor d2 s) st).seen ⊆ U := by
  induction ds generalizing st with
  | nil => exact ⟨rfl, hU⟩
  | cons d rest ih =>
    have hd : d ∈ U := hds d (List.mem_cons_self d rest)
    have hrest : ∀ x ∈ rest, x ∈ U := fun x hx => hds x (List.mem_cons_of_mem d hx)
    have h1 := addDescriptor_measure U st d hU hd
    have h2 := ih hrest (addDescriptor d st) h1.2
    simp only [List.foldl_cons]
    exact ⟨h2.1.trans h1.1, h2.2⟩

theorem loopStep_measure {D σ : Type} [DecidableEq D]
    (goto : D → σ → List D × σ) (U : Finset D)
    (hgoto : ∀ d a, ∀ d2 ∈ (goto d a).1, d2 ∈ U)
    (s : LoopState D σ) (hU : s.seen ⊆ U) (hne : s.todo ≠ []) :
    (loopStep goto s).todo.length + (U.card - (loopStep goto s).seen.card) + 1
      = s.todo.length + (U.card - s.seen.card) ∧
    (loopStep goto s).seen ⊆ U := by
  unfold loopStep
  rcases htodo : s.todo with _ | ⟨d, rest⟩
  · exact absurd htodo hne
  · dsimp only
    have h := foldAdd_measure U (goto d s.aux).1 (hgoto d s.aux)
      (⟨rest, s.seen, (goto d s.aux).2⟩ : LoopState D σ) hU
    refine ⟨?_, h.2⟩
    rw [h.1]
    simp only [htodo, List.length_cons]
    omega

theorem loop_reaches_empty {D σ : Type} [DecidableEq D]
    (goto : D → σ → List D × σ) (U : Finset D)
    (hgoto : ∀ d a, ∀ d2 ∈ (goto d a).1, d2 ∈ U) :
    ∀ m (s : LoopState D σ), s.seen ⊆ U →
      s.todo.length + (U.card - s.seen.card) ≤ m →
      ∃ k ≤ m, ((loopStep goto)^[k] s).todo = [] := by
  intro m
  induction m with
  | zero =>
    intro s _ hm
    refine ⟨0, le_refl 0, ?_⟩
    have : s.todo.length = 0 := by omega
    simpa using List.length_eq_zero.mp this
  | succ m ih =>
    intro s hU hm
    rcases htodo : s.todo with _ | ⟨d, rest⟩
    · exact ⟨0, Nat.zero_le _, htodo⟩
    · have hne : s.todo ≠ [] := by rw [htodo]; simp
      have h := loopStep_measure goto U hgoto s hU hne
      have hm2 : (loopStep goto s).todo.length +
          (U.card - (loopStep goto s).seen.card) ≤ m := by omega
      rcases ih (loopStep goto s) h.2 hm2 with ⟨k, hk, he⟩
      refine ⟨k + 1, by omega, ?_⟩
      rw [Function.iterate_succ_apply]
      exact he

/-- Claim C8: the main parser loop terminates.  AbstractParser.add only
enqueues a descriptor absent from seen, and enqueueing inserts it into
seen, so the measure todo-length plus unseen-descriptor-count drops by
exactly one on every iteration that pops a descriptor; when the
descriptors produced by goto come from a finite universe U, some
iterate of the loop body — at most the initial measure — has an empty
worklist, after which the loop exits. -/
theorem claim_C8 {D σ : Type} [DecidableEq D] (goto : D → σ → List D × σ)
    (U : Finset D) (s : LoopState D σ)
    (hgoto : ∀ d a, ∀ d2 ∈ (goto d a).1, d2 ∈ U)
    (hseen : s.seen ⊆ U) :
    (∀ (st : LoopState D σ) (d : D), d ∈ st.seen → addDescriptor d st = st) ∧
    (∀ (st : LoopState D σ) (d : D), d ∉ st.seen →
      (addDescriptor d st).todo = st.todo ++ [d] ∧
      (addDescriptor d st).seen = insert d st.seen) ∧
    ∃ k ≤ s.todo.length + (U.card - s.seen.card),
      ((loopStep goto)^[k] s).todo = [] := by
  refine ⟨?_, ?_, ?_⟩
  · intro st d hd
    unfold addDescriptor
    rw [if_pos hd]
  · intro st d hd
    unfold addDescriptor
    rw [if_neg hd]
    exact ⟨rfl, rfl⟩
  · exact loop_reaches_empty goto U hgoto _ s hseen (le_refl _)

/-- Witness for claim C8: a one-descriptor loop over the universe {0}
with a goto producing nothing drains its worklist within one step. -/
theorem claim_C8_witness :
    (∀ d a, ∀ d2 ∈ ((fun (_ : Nat) (_ : Unit) => (([] : List Nat), ())) d a).1,
      d2 ∈ ({0} : Finset Nat)) ∧
    ∃ k ≤ 1, ((loopStep (fun (_ : Nat) (_ : Unit) => (([] : List Nat), ())))^[k]
      (⟨[0], {0}, ()⟩ : LoopState Nat Unit)).todo = [] := by
  have h := claim_C8 (fun (_ : Nat) (_ : Unit) => (([] : List Nat), ()))
    ({0} : Finset Nat) (⟨[0], {0}, ()⟩ : LoopState Nat Unit)
    (fun d a d2 h2 => absurd h2 (List.not_mem_nil d2))
    (fun x hx => hx)
  rcases h.2.2 with ⟨k, hk, he⟩
  refine ⟨fun d a d2 h2 => absurd h2 (List.not_mem_nil d2), k, ?_, he⟩
  calc k ≤ _ := hk
    _ ≤ 1 := by simp

/-! ### Claim C5: TEST sets (helper lemmas) -/

theorem isEmptyT_iff (t : Terminal) : t.isEmptyT = true ↔ t = Terminal.emptyT := by
  rcases t with ⟨r, q⟩
  rcases r <;> rcases q <;> simp [Terminal.isEmptyT, Terminal.emptyT]

theorem drop_succ_tail {α : Type} : ∀ (j : Nat) (l : List α),
    l.drop (j + 1) = (l.drop j).tail := by
  intro j
  induction j with
  | zero => intro l; simp
  | succ j ih =>
    intro l
    cases l with
    | nil => rfl
    | cons a l => exact ih l

theorem eps_mem_firstSeqGo (g : CFG) : ∀ (seq : List Sym) (acc : Finset Terminal),
    Terminal.emptyT ∈ firstSeqGo g seq acc ↔
      Terminal.emptyT ∈ acc ∨ ∀ s ∈ seq, Terminal.emptyT ∈ g.first s := by
  intro seq
  induction seq with
  | nil => intro acc; simp [firstSeqGo]
  | cons s rest ih =>
    intro acc
    simp only [firstSeqGo]
    by_cases hm : Terminal.emptyT ∈ g.first s
    · rw [if_pos hm, ih]
      simp [List.forall_mem_cons, hm]
    · rw [if_neg hm]
      simp [List.forall_mem_cons, hm]

theorem firstSeqGo_all (g : CFG) : ∀ (seq : List Sym) (acc : Finset Terminal),
    (∀ s ∈ seq, Terminal.emptyT ∈ g.first s) →
    firstSeqGo g seq acc = acc ∪ unionF g seq ∪ {Terminal.emptyT} := by
  intro seq
  induction seq with
  | nil => intro acc _; simp [firstSeqGo, unionF]
  | cons s rest ih =>
    intro acc hall
    have hm : Terminal.emptyT ∈ g.first s := hall s (List.mem_cons_self s rest)
    simp only [firstSeqGo]
    rw [if_pos hm,
      ih (acc ∪ (g.first s \ {Terminal.emptyT}))
        (fun x hx => hall x (List.mem_cons_of_mem s hx))]
    simp only [unionF]
    rw [Finset.union_assoc acc]

theorem followSeqGo_all (g : CFG) (A : Nonterminal) :
    ∀ (seq : List Sym) (acc : Finset Terminal),
    (∀ s ∈ seq, Terminal.emptyT ∈ g.first s) →
    followSeqGo g A seq acc = acc ∪ unionF g seq ∪ g.follow A := by
  intro seq
  induction seq with
  | nil => intro acc _; simp [followSeqGo, unionF]
  | cons s rest ih =>
    intro acc hall
    have hm : Terminal.emptyT ∈ g.first s := hall s (List.mem_cons_self s rest)
    simp only [followSeqGo]
    rw [if_pos hm,
      ih (acc ∪ (g.first s \ {Terminal.emptyT}))
        (fun x hx => hall x (List.mem_cons_of_mem s hx))]
    simp only [unionF]
    rw [Finset.union_assoc acc]

theorem unionF_tail_subset (g : CFG) (seq : List Sym) :
    unionF g seq.tail ⊆ unionF g seq := by
  cases seq with
  | nil => simp
  | cons s rest =>
    simp only [List.tail_cons, unionF]
    exact Finset.subset_union_right

/-- Claim C5 counterexample: in gNullOnly the suffix at position (A, 0, 0)
consists exclusively of Empty terminals — the spec's reading "a suffix of
only ε terminals gives TEST = {ε}" applies — yet test_for_sequence
special-cases only the literal one-element suffix (Empty,), and here it
returns {ε, 'b'} (follow('A') leaks in through the ε-in-FIRST branch). -/
theorem claim_C5_counterexample :
    (∀ s ∈ ((gNullOnly.expansions ⟨"A"⟩).getD 0 []).drop 0,
      s = Sym.t Terminal.emptyT) ∧
    gNullOnly.testForSeq ⟨"A"⟩ 0 0 ≠ {Terminal.emptyT} ∧
    gNullOnly.testForSeq ⟨"A"⟩ 0 0 = {Terminal.emptyT, Terminal.lit "b"} := by
  decide

/-- Claim C5, amended: test_for_sequence returns {ε} exactly when the
grammar suffix at the position is the one-element sequence (Empty,);
otherwise it returns FIRST of the suffix when ε is not in that FIRST
set, and FIRST of the suffix united with FOLLOW of the nonterminal when
ε is in it (the follow_for_sequence contribution collapses to
FOLLOW(A) because every symbol of the suffix is then nullable). -/
theorem claim_C5 (g : CFG) (A : Nonterminal) (k j : Nat) :
    (((g.expansions A).getD k []).drop j = [Sym.t Terminal.emptyT] →
      g.testForSeq A k j = {Terminal.emptyT}) ∧
    (((g.expansions A).getD k []).drop j ≠ [Sym.t Terminal.emptyT] →
      Terminal.emptyT ∉ g.firstForSeq A k j →
      g.testForSeq A k j = g.firstForSeq A k j) ∧
    (((g.expansions A).getD k []).drop j ≠ [Sym.t Terminal.emptyT] →
      Terminal.emptyT ∈ g.firstForSeq A k j →
      g.testForSeq A k j = g.firstForSeq A k j ∪ g.follow A) := by
  refine ⟨?_, ?_, ?_⟩
  · intro heq
    unfold CFG.testForSeq
    rw [if_pos heq]
  · intro hne hnm
    unfold CFG.testForSeq
    rw [if_neg hne]
    dsimp only
    rw [if_neg]
    intro hc
    apply hc
    refine Finset.filter_eq_empty_iff.mpr ?_
    intro x hx hp
    exact hnm ((isEmptyT_iff x).mp hp ▸ hx)
  · intro hne hmem
    unfold CFG.testForSeq
    rw [if_neg hne]
    dsimp only
    rw [if_pos (Finset.ne_empty_of_mem
      (Finset.mem_filter.mpr ⟨hmem, by decide⟩))]
    have hall : ∀ s ∈ ((g.expansions A).getD k []).drop j,
        Terminal.emptyT ∈ g.first s := by
      have h := (eps_mem_firstSeqGo g (((g.expansions A).getD k []).drop j) ∅).mp hmem
      rcases h with h | h
      · exact absurd h (Finset.not_mem_empty _)
      · exact h
    have h1 : g.firstForSeq A k j =
        ∅ ∪ unionF g (((g.expansions A).getD k []).drop j) ∪ {Terminal.emptyT} :=
      firstSeqGo_all g _ ∅ hall
    have h2 : g.followForSeq A k j =
        ∅ ∪ unionF g ((((g.expansions A).getD k []).drop j).tail) ∪ g.follow A := by
      unfold CFG.followForSeq
      rw [drop_succ_tail]
      exact followSeqGo_all g A _ ∅
        (fun x hx => hall x (List.mem_of_mem_tail hx))
    rw [h1, h2]
    ext x
    simp only [Finset.mem_union, Finset.empty_union, Finset.mem_singleton]
    have hsx : x ∈ unionF g ((((g.expansions A).getD k []).drop j).tail) →
        x ∈ unionF g (((g.expansions A).getD k []).drop j) :=
      fun h => unionF_tail_subset g _ h
    tauto

/-- Witness for claim C5 at concrete positions of gNullOnly: the literal
(Empty,) suffix at (A,0,1); the ε-free FIRST at (S,0,0); the nullable
suffix at (A,0,0) where FOLLOW(A) is united in. -/
theorem claim_C5_witness :
    (((gNullOnly.expansions ⟨"A"⟩).getD 0 []).drop 1 = [Sym.t Terminal.emptyT] ∧
      gNullOnly.testForSeq ⟨"A"⟩ 0 1 = {Terminal.emptyT}) ∧
    (((gNullOnly.expansions ⟨"S"⟩).getD 0 []).drop 0 ≠ [Sym.t Terminal.emptyT] ∧
      Terminal.emptyT ∉ gNullOnly.firstForSeq ⟨"S"⟩ 0 0 ∧
      gNullOnly.testForSeq ⟨"S"⟩ 0 0 = gNullOnly.firstForSeq ⟨"S"⟩ 0 0) ∧
    (Terminal.emptyT ∈ gNullOnly.firstForSeq ⟨"A"⟩ 0 0 ∧
      gNullOnly.testForSeq ⟨"A"⟩ 0 0 =
        gNullOnly.firstForSeq ⟨"A"⟩ 0 0 ∪ gNullOnly.follow ⟨"A"⟩) := by
  refine ⟨⟨by decide, (claim_C5 gNullOnly ⟨"A"⟩ 0 1).1 (by decide)⟩,
    ⟨by decide, by decide, (claim_C5 gNullOnly ⟨"S"⟩ 0 0).2.1 (by decide) (by decide)⟩,
    ⟨by decide, (claim_C5 gNullOnly ⟨"A"⟩ 0 0).2.2 (by decide) (by decide)⟩⟩

/-! ### Claim C6: nullability and ε in FIRST (helper lemmas) -/

theorem mem_expansions {g : CFG} {A : Nonterminal} {alt : Alternative}
    (h : alt ∈ g.expansions A) : ∃ e ∈ g.rules, e.1 = A ∧ alt ∈ e.2 := by
  unfold CFG.expansions at h
  rcases hf : g.rules.find? (fun e => e.1 = A) with _ | e
  · rw [hf] at h
    simp at h
  · rw [hf] at h
    refine ⟨e, List.mem_of_find?_eq_some hf, ?_, h⟩
    have h2 := List.find?_some hf
    simpa using h2

theorem expansions_eq {g : CFG} {A : Nonterminal}
    (hnodup : (g.rules.map Prod.fst).Nodup)
    {e : Nonterminal × List Alternative} (he : e ∈ g.rules) (hA : e.1 = A) :
    g.expansions A = e.2 := by
  unfold CFG.expansions
  rcases hf : g.rules.find? (fun e => e.1 = A) with _ | e2
  · exfalso
    have h1 : (g.rules.find? (fun e => e.1 = A)).isSome := by
      rw [List.find?_isSome]
      exact ⟨e, he, by simpa using hA⟩
    rw [hf] at h1
    simp at h1
  · have h2 : e2 ∈ g.rules := List.mem_of_find?_eq_some hf
    have h3 : e2.1 = A := by simpa using List.find?_some hf
    have h4 : e2 = e :=
      List.inj_on_of_nodup_map hnodup h2 he (h3.trans hA.symm)
    rw [hf, h4]
    rfl

theorem ruleIsNullable_iff (rule : Alternative) (ns : Finset Nonterminal) :
    ruleIsNullable rule ns = true ↔
      ((∀ s ∈ rule, ∀ t, s = Sym.t t → t.isEmptyT = true) ∧
       (∀ s ∈ rule, ∀ B, s = Sym.nt B → B ∈ ns)) := by
  unfold ruleIsNullable
  rw [List.all_eq_true]
  constructor
  · intro h
    constructor
    · intro s hs t ht
      subst ht
      have h2 := h (Sym.t t) hs
      simpa using h2
    · intro s hs B hB
      subst hB
      have h2 := h (Sym.nt B) hs
      simpa using h2
  · intro h s hs
    cases s with
    | t t => simpa using h.1 (Sym.t t) hs t rfl
    | nt B => simpa using h.2 (Sym.nt B) hs B rfl

theorem nullStep_subset (g : CFG) (s : Finset Nonterminal) :
    nullStep g s ⊆ g.ruleKeys :=
  Finset.filter_subset _ _

/-- The fuel of CFG.nullables suffices: the resulting set absorbs one more
pass of the loop body, i.e. it is the fixpoint the unbounded Python
while-loop reaches. -/
theorem nullables_isFixpoint (g : CFG) : ∀ (fuel : Nat) (s : Finset Nonterminal),
    s ⊆ g.ruleKeys → g.ruleKeys.card + 1 ≤ fuel + s.card →
    nullStep g (nullablesGo g fuel s) ⊆ nullablesGo g fuel s := by
  intro fuel
  induction fuel with
  | zero =>
    intro s hs hc
    have h1 := Finset.card_le_card hs
    exact absurd hc (by omega)
  | succ fuel ih =>
    intro s hs hc
    simp only [nullablesGo]
    by_cases hadd : nullStep g s ⊆ s
    · rw [if_pos hadd]
      exact hadd
    · rw [if_neg hadd]
      apply ih
      · exact Finset.union_subset hs (nullStep_subset g s)
      · have hss : s ⊂ s ∪ nullStep g s := by
          refine Finset.ssubset_iff_subset_ne.mpr ⟨Finset.subset_union_left, ?_⟩
          intro heq
          apply hadd
          intro x hx
          have h2 : x ∈ s ∪ nullStep g s := Finset.mem_union_right s hx
          rw [← heq] at h2
          exact h2
        have h3 := Finset.card_lt_card hss
        omega

theorem nullablesGo_sound (g : CFG) : ∀ (fuel : Nat) (s : Finset Nonterminal),
    (∀ x ∈ s, SpecNullable g x) → ∀ x ∈ nullablesGo g fuel s, SpecNullable g x := by
  intro fuel
  induction fuel with
  | zero => intro s hs; exact hs
  | succ fuel ih =>
    intro s hs
    simp only [nullablesGo]
    by_cases hadd : nullStep g s ⊆ s
    · rw [if_pos hadd]
      exact hs
    · rw [if_neg hadd]
      apply ih
      intro x hx
      rcases Finset.mem_union.mp hx with hx | hx
      · exact hs x hx
      · rcases Finset.mem_filter.mp hx with ⟨hkey, hany⟩
        rcases List.any_eq_true.mp hany with ⟨alt, halt, hnul⟩
        have h2 := (ruleIsNullable_iff alt s).mp hnul
        exact SpecNullable.intro x alt (mem_expansions halt) h2.1
          (fun sym hsym B hB => hs B (h2.2 sym hsym B hB))

theorem specNullable_mem (g : CFG) (hnodup : (g.rules.map Prod.fst).Nodup) :
    ∀ (A : Nonterminal), SpecNullable g A → A ∈ g.nullables := by
  intro A h
  induction h with
  | intro A alt hmem hterm hnts ih =>
    rcases hmem with ⟨e, he, he1, halt⟩
    have hkey : A ∈ g.ruleKeys := by
      unfold CFG.ruleKeys
      rw [List.mem_toFinset]
      exact he1 ▸ List.mem_map_of_mem (fun e => e.1) he
    have hstep : A ∈ nullStep g g.nullables := by
      refine Finset.mem_filter.mpr ⟨hkey, ?_⟩
      rw [List.any_eq_true]
      refine ⟨alt, ?_, ?_⟩
      · rw [expansions_eq hnodup he he1]
        exact halt
      · rw [ruleIsNullable_iff]
        exact ⟨hterm, fun s hs B hB => ih s hs B hB⟩
    exact nullables_isFixpoint g (g.ruleKeys.card + 1) ∅ (Finset.empty_subset _)
      (by simp) hstep

theorem pairsForAlt_eps (g : CFG) (A : Nonterminal) : ∀ (alt : Alternative),
    (∀ s ∈ alt, ∀ t, s = Sym.t t → t.isEmptyT = true) →
    (∀ s ∈ alt, ∀ B, s = Sym.nt B → B ∈ g.nullables) →
    (Sym.nt A, Sym.t Terminal.emptyT) ∈ pairsForAlt g A alt := by
  intro alt
  induction alt with
  | nil => intro _ _; simp [pairsForAlt]
  | cons s rest ih =>
    intro hterm hnts
    cases s with
    | nt B =>
      have hB : B ∈ g.nullables := hnts (Sym.nt B) (List.mem_cons_self _ _) B rfl
      simp only [pairsForAlt]
      rw [if_pos hB]
      exact List.mem_cons_of_mem _
        (ih (fun x hx => hterm x (List.mem_cons_of_mem _ hx))
            (fun x hx => hnts x (List.mem_cons_of_mem _ hx)))
    | t t =>
      have ht : t.isEmptyT = true := hterm (Sym.t t) (List.mem_cons_self _ _) t rfl
      simp only [pairsForAlt]
      rw [if_pos ht]
      exact List.mem_cons_self _ _

theorem basePairs_mem {g : CFG} {e : Nonterminal × List Alternative}
    (he : e ∈ g.rules) {alt : Alternative} (halt : alt ∈ e.2)
    {p : Sym × Sym} (hp : p ∈ pairsForAlt g e.1 alt) : p ∈ basePairs g := by
  unfold basePairs
  rw [List.mem_flatMap]
  exact ⟨e, he, List.mem_flatMap.mpr ⟨alt, halt, hp⟩⟩

theorem transStep_sub {support : List Sym} {rel : List (Sym × Sym)} {k : Sym}
    {p : Sym × Sym} (h : p ∈ rel) : p ∈ transStep support rel k :=
  List.mem_append.mpr (Or.inl h)

theorem foldTrans_sub (support : List Sym) : ∀ (ks : List Sym)
    (rel : List (Sym × Sym)) (p : Sym × Sym), p ∈ rel →
    p ∈ ks.foldl (transStep support) rel := by
  intro ks
  induction ks with
  | nil => intro rel p h; exact h
  | cons k rest ih =>
    intro rel p h
    exact ih (transStep support rel k) p (transStep_sub h)

theorem transClosure_sub {pairs : List (Sym × Sym)} {p : Sym × Sym}
    (h : p ∈ pairs) : p ∈ transClosure pairs := by
  unfold transClosure
  exact foldTrans_sub _ _ pairs p h

theorem mem_first_of_pair {g : CFG} {A : Nonterminal} {t : Terminal}
    (h : (Sym.nt A, Sym.t t) ∈ transClosure (basePairs g)) :
    t ∈ g.first (Sym.nt A) := by
  unfold CFG.first
  rw [List.mem_toFinset, List.mem_filterMap]
  exact ⟨(Sym.nt A, Sym.t t), h, by simp⟩

/-- Claim C6 counterexample: in gEpsChain (A → B 'c'; B → ε) the code has
ε ∈ FIRST('A') — the plain transitive closure of begins-with chains
through the nullable B into B's ε pair — although 'A' is not nullable:
its only alternative contains the non-empty terminal 'c'. -/
theorem claim_C6_counterexample :
    Terminal.emptyT ∈ gEpsChain.first (Sym.nt ⟨"A"⟩) ∧
    ¬ SpecNullable gEpsChain ⟨"A"⟩ := by
  refine ⟨by decide, ?_⟩
  intro h
  rcases h with ⟨_, alt, hmem, hterm, hnts⟩
  rcases hmem with ⟨e, he, he1, halt⟩
  rcases List.mem_cons.mp he with rfl | he2
  · simp only [List.mem_singleton] at halt
    subst halt
    have h2 := hterm (Sym.t (Terminal.lit "c")) (by simp) (Terminal.lit "c") rfl
    exact absurd h2 (by decide)
  · rcases List.mem_cons.mp he2 with rfl | he3
    · exact absurd he1 (by decide)
    · cases he3

/-- Claim C6, amended: for a grammar whose rules dictionary has no
duplicate keys, the nullables fixpoint computes exactly the nullable
nonterminals (those with an alternative of Empty terminals and nullable
nonterminals), and nullability of A implies ε ∈ FIRST('A'); the converse
of the latter fails (claim_C6_counterexample). -/
theorem claim_C6 (g : CFG) (hnodup : (g.rules.map Prod.fst).Nodup) :
    (∀ A, A ∈ g.nullables ↔ SpecNullable g A) ∧
    (∀ A, SpecNullable g A → Terminal.emptyT ∈ g.first (Sym.nt A)) := by
  constructor
  · intro A
    constructor
    · intro h
      exact nullablesGo_sound g (g.ruleKeys.card + 1) ∅
        (fun x hx => absurd hx (Finset.not_mem_empty x)) A h
    · exact specNullable_mem g hnodup A
  · intro A h
    rcases h with ⟨_, alt, hmem, hterm, hnts⟩
    rcases hmem with ⟨e, he, he1, halt⟩
    apply mem_first_of_pair
    apply transClosure_sub
    apply basePairs_mem he halt
    rw [he1]
    exact pairsForAlt_eps g A alt hterm
      (fun s hs B hB => specNullable_mem g hnodup B (hnts s hs B hB))

/-- Witness for claim C6 at gEpsChain: its rule keys are distinct, 'B' is
nullable on both sides of the equivalence, and ε ∈ FIRST('B'). -/
theorem claim_C6_witness :
    (gEpsChain.rules.map Prod.fst).Nodup ∧
    SpecNullable gEpsChain ⟨"B"⟩ ∧
    Terminal.emptyT ∈ gEpsChain.first (Sym.nt ⟨"B"⟩) := by
  have h := claim_C6 gEpsChain (by decide)
  have hb : SpecNullable gEpsChain ⟨"B"⟩ := (h.1 ⟨"B"⟩).mp (by decide)
  exact ⟨by decide, hb, h.2 ⟨"B"⟩ hb⟩

/-! ### Claim C9: lowering of disambiguation tags (helper lemmas) -/

theorem declareAmbiguity_fst (d : PDef) (c : ACheck) :
    (d.declareAmbiguity c).1 = c.nameA := by
  unfold PDef.declareAmbiguity
  split <;> rfl

theorem declareAmbiguity_fresh (d : PDef) (c : ACheck)
    (h : ∀ e ∈ d.ambiguityChecks, e.1 ≠ c.nameA) :
    (d.declareAmbiguity c).2.ambiguityChecks = d.ambiguityChecks ++ [(c.nameA, c)] := by
  unfold PDef.declareAmbiguity
  have hc : ¬((d.ambiguityChecks.any fun e => e.1 = c.nameA) = true) := by
    intro hc
    rcases List.any_eq_true.mp hc with ⟨e, he, hep⟩
    exact h e he (by simpa using hep)
  rw [if_neg hc]

theorem tagsGet_single (k : Nonterminal × Nat × Nat) (ts : List Tag) :
    tagsGet [(k, ts)] k = ts := by
  simp [tagsGet]

/-- Claim C9 counterexample: in gTwoTags two restriction tags with the
same payload sit at (S,0,0) and (S,0,1); the builder keys the ambiguity
dictionary by check name, which omits the slot, so the second tag's
registration is dropped: the generated IR holds a single check, indexed
by the first tag's return slot only — nothing is registered against the
return slot (S,0,2) of the second tag. -/
theorem claim_C9_counterexample :
    tagsGet tTwoTags (⟨"S"⟩, 0, 1) = [(TagKind.restrictionT, [Terminal.lit "a"])] ∧
    (generateParserIR gTwoTags tTwoTags).map (fun d => d.ambiguityChecks) =
      some [("terminal_check_restriction__a",
        ACheck.restrictionC (getSlotName "S" 0 1 false) ["a"] [])] ∧
    getSlotName "S" 0 2 false ≠ getSlotName "S" 0 1 false := by
  decide

/-- Claim C9, amended: for a single tag at position (A, k, j) with a
class-free payload, the builder lowers precede and not-precede tags to an
inline Disambiguate statement with a check that is not an in-pop check;
follow and not-follow tags to an inline Disambiguate statement (not
in-pop) when the symbol at j is a terminal, and to an in-pop check
carrying the return-slot name (A, k, j+1) with no inline statement when
it is a nonterminal; restriction tags always to an in-pop check carrying
the return-slot name with no inline statement.  In the nonterminal and
restriction cases the check is recorded in the ambiguity dictionary only
if no stored check already bears its name (the name omits the slot, so a
same-named check from another position silently absorbs the
registration — claim_C9_counterexample). -/
theorem claim_C9 (d : PDef) (nt : Nonterminal) (altNum pos : Nat) (g : CFG)
    (payload : List Terminal) (lits : List String)
    (hsplit : splitTerminals payload = some (lits, [])) :
    (∀ negated : Bool,
      genAmbiguityChecks d nt altNum pos g
          [((nt, altNum, pos),
            [(if negated then TagKind.notPrecedeT else TagKind.precedeT, payload)])] =
        some ((d.declareAmbiguity (.precedeC
            (getSlotName nt.name (altNum : Int) ((pos : Int) + 1) false)
            lits [] negated)).2,
          [Stmt.disambiguate (ACheck.precedeC
            (getSlotName nt.name (altNum : Int) ((pos : Int) + 1) false)
            lits [] negated).nameA]) ∧
      (ACheck.precedeC (getSlotName nt.name (altNum : Int) ((pos : Int) + 1) false)
          lits [] negated).asPopCheck = false) ∧
    (∀ negated : Bool,
      (((g.expansions nt).getD altNum []).getD pos
          (Sym.t Terminal.emptyT)).isTerminal = true →
      genAmbiguityChecks d nt altNum pos g
          [((nt, altNum, pos),
            [(if negated then TagKind.notFollowT else TagKind.followT, payload)])] =
        some ((d.declareAmbiguity (.followC
            (getSlotName nt.name (altNum : Int) ((pos : Int) + 1) false)
            lits [] negated false)).2,
          [Stmt.disambiguate (ACheck.followC
            (getSlotName nt.name (altNum : Int) ((pos : Int) + 1) false)
            lits [] negated false).nameA]) ∧
      (ACheck.followC (getSlotName nt.name (altNum : Int) ((pos : Int) + 1) false)
          lits [] negated false).asPopCheck = false) ∧
    (∀ negated : Bool,
      (((g.expansions nt).getD altNum []).getD pos
          (Sym.t Terminal.emptyT)).isTerminal = false →
      genAmbiguityChecks d nt altNum pos g
          [((nt, altNum, pos),
            [(if negated then TagKind.notFollowT else TagKind.followT, payload)])] =
        some ((d.declareAmbiguity (.followC
            (getSlotName nt.name (altNum : Int) ((pos : Int) + 1) false)
            lits [] negated true)).2, []) ∧
      (ACheck.followC (getSlotName nt.name (altNum : Int) ((pos : Int) + 1) false)
          lits [] negated true).asPopCheck = true ∧
      (ACheck.followC (getSlotName nt.name (altNum : Int) ((pos : Int) + 1) false)
          lits [] negated true).slotA =
        getSlotName nt.name (altNum : Int) ((pos : Int) + 1) false ∧
      ((∀ e ∈ d.ambiguityChecks, e.1 ≠ (ACheck.followC
          (getSlotName nt.name (altNum : Int) ((pos : Int) + 1) false)
          lits [] negated true).nameA) →
        (d.declareAmbiguity (.followC
            (getSlotName nt.name (altNum : Int) ((pos : Int) + 1) false)
            lits [] negated true)).2.ambiguityChecks =
          d.ambiguityChecks ++ [((ACheck.followC
            (getSlotName nt.name (altNum : Int) ((pos : Int) + 1) false)
            lits [] negated true).nameA, ACheck.followC
            (getSlotName nt.name (altNum : Int) ((pos : Int) + 1) false)
            lits [] negated true)])) ∧
    (genAmbiguityChecks d nt altNum pos g
        [((nt, altNum, pos), [(TagKind.restrictionT, payload)])] =
      some ((d.declareAmbiguity (.restrictionC
          (getSlotName nt.name (altNum : Int) ((pos : Int) + 1) false)
          lits [])).2, []) ∧
      (ACheck.restrictionC (getSlotName nt.name (altNum : Int) ((pos : Int) + 1) false)
          lits []).asPopCheck = true ∧
      (ACheck.restrictionC (getSlotName nt.name (altNum : Int) ((pos : Int) + 1) false)
          lits []).slotA =
        getSlotName nt.name (altNum : Int) ((pos : Int) + 1) false ∧
      ((∀ e ∈ d.ambiguityChecks, e.1 ≠ (ACheck.restrictionC
          (getSlotName nt.name (altNum : Int) ((pos : Int) + 1) false)
          lits []).nameA) →
        (d.declareAmbiguity (.restrictionC
            (getSlotName nt.name (altNum : Int) ((pos : Int) + 1) false)
            lits [])).2.ambiguityChecks =
          d.ambiguityChecks ++ [((ACheck.restrictionC
            (getSlotName nt.name (altNum : Int) ((pos : Int) + 1) false)
            lits []).nameA, ACheck.restrictionC
            (getSlotName nt.name (altNum : Int) ((pos : Int) + 1) false)
            lits [])])) := by
  refine ⟨?_, ?_, ?_, ?_⟩
  · intro negated
    cases negated <;>
    · constructor
      · simp only [genAmbiguityChecks, tagsGet_single, List.foldl_cons, List.foldl_nil]
        rw [hsplit]
        simp [declareAmbiguity_fst]
      · rfl
  · intro negated hsym
    cases negated <;>
    · refine ⟨?_, rfl⟩
      simp only [genAmbiguityChecks, tagsGet_single, List.foldl_cons, List.foldl_nil]
      rw [hsplit]
      dsimp only
      rw [hsym]
      simp [declareAmbiguity_fst]
  · intro negated hsym
    cases negated <;>
    · refine ⟨?_, rfl, rfl, declareAmbiguity_fresh d _⟩
      simp only [genAmbiguityChecks, tagsGet_single, List.foldl_cons, List.foldl_nil]
      rw [hsplit]
      dsimp only
      rw [hsym]
      simp
  · refine ⟨?_, rfl, rfl, declareAmbiguity_fresh d _⟩
    simp only [genAmbiguityChecks, tagsGet_single, List.foldl_cons, List.foldl_nil]
    rw [hsplit]

/-- Witness for claim C9 at the restriction scenario: the payload
{'a','b'} splits into literals, and the tag at (S,0,1) — a nonterminal
position — lowers to a pop check on the return slot with no inline
statement. -/
theorem claim_C9_witness :
    splitTerminals [Terminal.lit "a", Terminal.lit "b"] = some (["a", "b"], []) ∧
    genAmbiguityChecks PDef.emptyP ⟨"S"⟩ 0 1 gRestrict
        [((⟨"S"⟩, 0, 1),
          [(TagKind.restrictionT, [Terminal.lit "a", Terminal.lit "b"])])] =
      some ((PDef.emptyP.declareAmbiguity
        (.restrictionC (getSlotName "S" 0 2 false) ["a", "b"] [])).2, []) := by
  refine ⟨by decide, ?_⟩
  exact ((claim_C9 PDef.emptyP ⟨"S"⟩ 0 1 gRestrict
    [Terminal.lit "a", Terminal.lit "b"] ["a", "b"] (by decide)).2.2.2).1

/-! ### Claim C7: the IntSet algebra (helper lemmas) -/

theorem SepRanges_symm {a b : Int × Int} (h : SepRanges a b) : SepRanges b a := by
  unfold SepRanges at h ⊢
  omega

theorem sepRanges_symmetric : Symmetric SepRanges := fun _ _ h => SepRanges_symm h

theorem tailSep_zero (l : List (Int × Int)) : TailSep l 0 := by
  constructor
  · rw [Nat.sub_zero, List.drop_length]
    exact List.Pairwise.nil
  · rw [Nat.sub_zero, List.drop_length]
    intro a _ b hb
    cases hb

theorem inRanges_nil (x : Int) : ¬ inRanges x [] := by
  rintro ⟨r, hr, _⟩
  cases hr

theorem inRanges_cons {x : Int} {a : Int × Int} {l : List (Int × Int)} :
    inRanges x (a :: l) ↔ (a.1 ≤ x ∧ x ≤ a.2) ∨ inRanges x l := by
  constructor
  · rintro ⟨r, hr, h1, h2⟩
    rcases List.mem_cons.mp hr with rfl | hr
    · exact Or.inl ⟨h1, h2⟩
    · exact Or.inr ⟨r, hr, h1, h2⟩
  · rintro (⟨h1, h2⟩ | ⟨r, hr, h1, h2⟩)
    · exact ⟨a, List.mem_cons_self a l, h1, h2⟩
    · exact ⟨r, List.mem_cons_of_mem a hr, h1, h2⟩

theorem inRanges_append {x : Int} {l1 l2 : List (Int × Int)} :
    inRanges x (l1 ++ l2) ↔ inRanges x l1 ∨ inRanges x l2 := by
  constructor
  · rintro ⟨r, hr, h1, h2⟩
    rcases List.mem_append.mp hr with hr | hr
    · exact Or.inl ⟨r, hr, h1, h2⟩
    · exact Or.inr ⟨r, hr, h1, h2⟩
  · rintro (⟨r, hr, h1, h2⟩ | ⟨r, hr, h1, h2⟩)
    · exact ⟨r, List.mem_append.mpr (Or.inl hr), h1, h2⟩
    · exact ⟨r, List.mem_append.mpr (Or.inr hr), h1, h2⟩

theorem unionPass_spec : ∀ (l : List (Int × Int)) (acc : Int × Int),
    (unionPass acc l).1.length ≤ l.length ∧
    ((unionPass acc l).2.2 = false →
      (unionPass acc l).1 = l ∧ (unionPass acc l).2.1 = acc ∧
      ∀ o ∈ l, SepRanges acc o) := by
  intro l
  induction l with
  | nil =>
    intro acc
    exact ⟨Nat.le_refl 0, fun _ => ⟨rfl, rfl, by intro o ho; cases ho⟩⟩
  | cons o rest ih =>
    intro acc
    simp only [unionPass]
    by_cases hc : (acc.2 < o.1 ∨ acc.1 > o.2) ∧ ¬(acc.2 + 1 = o.1 ∨ o.2 + 1 = acc.1)
    · rw [if_pos hc]
      refine ⟨by simpa using Nat.succ_le_succ (ih acc).1, ?_⟩
      intro hf
      rcases (ih acc).2 hf with ⟨h1, h2, h3⟩
      refine ⟨by rw [h1], h2, ?_⟩
      intro y hy
      rcases List.mem_cons.mp hy with rfl | hy
      · exact hc
      · exact h3 y hy
    · rw [if_neg hc]
      refine ⟨?_, ?_⟩
      · exact le_trans (ih (min acc.1 o.1, max acc.2 o.2)).1 (Nat.le_succ _)
      · intro hf
        exact absurd hf (by simp)

theorem unionPass_length_lt : ∀ (l : List (Int × Int)) (acc : Int × Int),
    (unionPass acc l).2.2 = true → (unionPass acc l).1.length < l.length := by
  intro l
  induction l with
  | nil =>
    intro acc h
    exact absurd h (by simp [unionPass])
  | cons o rest ih =>
    intro acc
    simp only [unionPass]
    by_cases hc : (acc.2 < o.1 ∨ acc.1 > o.2) ∧ ¬(acc.2 + 1 = o.1 ∨ o.2 + 1 = acc.1)
    · rw [if_pos hc]
      intro h
      exact Nat.succ_lt_succ (ih acc h)
    · rw [if_neg hc]
      intro _
      exact Nat.lt_succ_of_le (unionPass_spec rest (min acc.1 o.1, max acc.2 o.2)).1

theorem unionPass_elems : ∀ (l : List (Int × Int)) (acc : Int × Int),
    wfRange acc → (∀ r ∈ l, wfRange r) →
    wfRange (unionPass acc l).2.1 ∧
    (∀ r ∈ (unionPass acc l).1, wfRange r) ∧
    ∀ x : Int,
      (inRanges x (unionPass acc l).1 ∨
        ((unionPass acc l).2.1.1 ≤ x ∧ x ≤ (unionPass acc l).2.1.2)) ↔
      (inRanges x l ∨ (acc.1 ≤ x ∧ x ≤ acc.2)) := by
  intro l
  induction l with
  | nil =>
    intro acc hacc _
    simp only [unionPass]
    exact ⟨hacc, fun r hr => absurd hr (List.not_mem_nil r), fun _ => trivial⟩
  | cons o rest ih =>
    intro acc hacc hwf
    have hwo : wfRange o := hwf o (List.mem_cons_self o rest)
    have hwrest : ∀ r ∈ rest, wfRange r := fun r hr => hwf r (List.mem_cons_of_mem o hr)
    simp only [unionPass]
    by_cases hc : (acc.2 < o.1 ∨ acc.1 > o.2) ∧ ¬(acc.2 + 1 = o.1 ∨ o.2 + 1 = acc.1)
    · rw [if_pos hc]
      rcases ih acc hacc hwrest with ⟨h1, h2, h3⟩
      refine ⟨h1, ?_, ?_⟩
      · intro r hr
        rcases List.mem_cons.mp hr with rfl | hr
        · exact hwo
        · exact h2 r hr
      · intro x
        rw [inRanges_cons, inRanges_cons]
        have h4 := h3 x
        tauto
    · rw [if_neg hc]
      have hacc2 : wfRange (min acc.1 o.1, max acc.2 o.2) := by
        unfold wfRange at hacc hwo ⊢
        dsimp only
        omega
      rcases ih (min acc.1 o.1, max acc.2 o.2) hacc2 hwrest with ⟨h1, h2, h3⟩
      refine ⟨h1, h2, ?_⟩
      intro x
      have h4 := h3 x
      have hcov : ((min acc.1 o.1, max acc.2 o.2).1 ≤ x ∧
          x ≤ (min acc.1 o.1, max acc.2 o.2).2) ↔
          ((acc.1 ≤ x ∧ x ≤ acc.2) ∨ (o.1 ≤ x ∧ x ≤ o.2)) := by
        unfold wfRange at hacc hwo
        dsimp only
        omega
      rw [hcov] at h4
      rw [h4, inRanges_cons]
      constructor
      · rintro (h | h | h)
        · exact Or.inl (Or.inr h)
        · exact Or.inr h
        · exact Or.inl (Or.inl h)
      · rintro ((h | h) | h)
        · exact Or.inr (Or.inr h)
        · exact Or.inl h
        · exact Or.inr (Or.inl h)

theorem inRanges_singleton {x : Int} {m : Int × Int} :
    inRanges x [m] ↔ (m.1 ≤ x ∧ x ≤ m.2) := by
  rw [inRanges_cons]
  constructor
  · rintro (h | h)
    · exact h
    · exact absurd h (inRanges_nil x)
  · exact Or.inl

theorem tailSep_rotate {h : Int × Int} {t : List (Int × Int)} {k : Nat}
    (ht : TailSep (h :: t) k) (hsep : ∀ o ∈ t, SepRanges h o) :
    TailSep (t ++ [h]) (k + 1) := by
  rcases ht with ⟨hp, hf⟩
  by_cases hk : k ≤ t.length
  · have e1 : (h :: t).length - k = (t.length - k) + 1 := by
      simp only [List.length_cons]
      omega
    have e2 : (t ++ [h]).length - (k + 1) = t.length - k := by
      simp only [List.length_append, List.length_singleton]
      omega
    rw [e1, List.drop_succ_cons] at hp
    rw [e1, List.take_succ_cons, List.drop_succ_cons] at hf
    constructor
    · rw [e2, List.drop_append_of_le_length (by omega), List.pairwise_append]
      refine ⟨hp, List.pairwise_singleton _ _, ?_⟩
      intro a ha b hb
      rw [List.mem_singleton] at hb
      subst hb
      exact SepRanges_symm (hsep a (List.drop_subset _ _ ha))
    · rw [e2, List.take_append_of_le_length (by omega),
        List.drop_append_of_le_length (by omega)]
      intro a ha b hb
      rcases List.mem_append.mp hb with hb | hb
      · exact hf a (List.mem_cons_of_mem h ha) b hb
      · rw [List.mem_singleton] at hb
        subst hb
        exact SepRanges_symm (hsep a (List.take_subset _ _ ha))
  · have e1 : (h :: t).length - k = 0 := by
      simp only [List.length_cons]
      omega
    have e2 : (t ++ [h]).length - (k + 1) = 0 := by
      simp only [List.length_append, List.length_singleton]
      omega
    rw [e1, List.drop_zero] at hp
    rw [List.pairwise_cons] at hp
    constructor
    · rw [e2, List.drop_zero, List.pairwise_append]
      refine ⟨hp.2, List.pairwise_singleton _ _, ?_⟩
      intro a ha b hb
      rw [List.mem_singleton] at hb
      subst hb
      exact SepRanges_symm (hp.1 a ha)
    · rw [e2, List.take_zero]
      intro a ha
      cases ha

theorem tailSep_pairwise {l : List (Int × Int)} {k : Nat} (h : TailSep l k)
    (hk : l.length ≤ k) : l.Pairwise SepRanges := by
  have e : l.length - k = 0 := by omega
  have h1 := h.1
  rw [e, List.drop_zero] at h1
  exact h1

theorem unionGo_elems : ∀ (fuel : Nat) (l : List (Int × Int)) (nc n : Nat),
    (∀ r ∈ l, wfRange r) →
    (∀ r ∈ unionGo fuel l nc n, wfRange r) ∧
    (∀ x, inRanges x (unionGo fuel l nc n) ↔ inRanges x l) := by
  intro fuel
  induction fuel with
  | zero =>
    intro l nc n hwf
    rcases l with _ | ⟨r, _ | ⟨o, rest⟩⟩
    · simp only [unionGo]
      exact ⟨hwf, fun _ => trivial⟩
    · simp only [unionGo]
      exact ⟨hwf, fun _ => trivial⟩
    · simp only [unionGo]
      exact ⟨hwf, fun _ => trivial⟩
  | succ fuel ih =>
    intro l nc n hwf
    rcases l with _ | ⟨r, _ | ⟨o, rest⟩⟩
    · simp only [unionGo]
      exact ⟨hwf, fun _ => trivial⟩
    · simp only [unionGo]
      exact ⟨hwf, fun _ => trivial⟩
    · simp only [unionGo]
      have hwr : wfRange r := hwf r (List.mem_cons_self _ _)
      have hwrest : ∀ x ∈ o :: rest, wfRange x :=
        fun x hx => hwf x (List.mem_cons_of_mem r hx)
      rcases unionPass_elems (o :: rest) r hwr hwrest with ⟨h1, h2, h3⟩
      have hwfnew : ∀ x ∈ (unionPass r (o :: rest)).1 ++
          [(unionPass r (o :: rest)).2.1], wfRange x := by
        intro x hx
        rcases List.mem_append.mp hx with hx | hx
        · exact h2 x hx
        · rw [List.mem_singleton] at hx
          subst hx
          exact h1
      have helemsnew : ∀ x, inRanges x ((unionPass r (o :: rest)).1 ++
          [(unionPass r (o :: rest)).2.1]) ↔ inRanges x (r :: o :: rest) := by
        intro x
        rw [inRanges_append, inRanges_singleton, inRanges_cons, h3 x]
        exact or_comm
      by_cases hge : (cond (unionPass r (o :: rest)).2.2 0 (nc + 1)) ≥ n
      · rw [if_pos hge]
        exact ⟨hwfnew, helemsnew⟩
      · rw [if_neg hge]
        rcases ih ((unionPass r (o :: rest)).1 ++ [(unionPass r (o :: rest)).2.1])
          (cond (unionPass r (o :: rest)).2.2 0 (nc + 1)) n hwfnew with ⟨g1, g2⟩
        exact ⟨g1, fun x => (g2 x).trans (helemsnew x)⟩

theorem unionGo_pairwise : ∀ (fuel : Nat) (l : List (Int × Int)) (nc n : Nat),
    l.length ≤ n → l.length * (n + 1) + (n - nc) ≤ fuel → TailSep l nc →
    (unionGo fuel l nc n).Pairwise SepRanges := by
  intro fuel
  induction fuel with
  | zero =>
    intro l nc n _ hfuel _
    have h0 : l.length = 0 := by
      by_contra hne
      have h1 : 1 ≤ l.length := Nat.one_le_iff_ne_zero.mpr hne
      have h2 : 1 * (n + 1) ≤ l.length * (n + 1) := Nat.mul_le_mul_right (n + 1) h1
      omega
    obtain rfl := List.length_eq_zero.mp h0
    simp only [unionGo]
    exact List.Pairwise.nil
  | succ fuel ih =>
    intro l nc n hlen hfuel ht
    rcases l with _ | ⟨r, _ | ⟨o, rest⟩⟩
    · simp only [unionGo]
      exact List.Pairwise.nil
    · simp only [unionGo]
      exact List.pairwise_singleton _ _
    · simp only [unionGo]
      simp only [List.length_cons] at hlen
      cases hch : (unionPass r (o :: rest)).2.2 with
      | true =>
        simp only [cond_true]
        rw [if_neg (by omega : ¬ 0 ≥ n)]
        have hklt : (unionPass r (o :: rest)).1.length < (o :: rest).length :=
          unionPass_length_lt (o :: rest) r hch
        simp only [List.length_cons] at hklt
        have hlennew : ((unionPass r (o :: rest)).1 ++
            [(unionPass r (o :: rest)).2.1]).length =
            (unionPass r (o :: rest)).1.length + 1 := by
          simp
        apply ih
        · omega
        · rw [hlennew]
          have h1 : (unionPass r (o :: rest)).1.length + 1 + 1 ≤ rest.length + 1 + 1 := by
            omega
          have h2 : ((unionPass r (o :: rest)).1.length + 1) * (n + 1) + (n + 1) ≤
              (rest.length + 1 + 1) * (n + 1) := by
            calc ((unionPass r (o :: rest)).1.length + 1) * (n + 1) + (n + 1)
                = ((unionPass r (o :: rest)).1.length + 1 + 1) * (n + 1) := by ring
              _ ≤ (rest.length + 1 + 1) * (n + 1) := Nat.mul_le_mul_right (n + 1) h1
          have h3 : (rest.length + 1 + 1) * (n + 1) + (n - nc) ≤ fuel + 1 := by
            have h4 : (r :: o :: rest).length = rest.length + 1 + 1 := by simp
            rw [h4] at hfuel
            exact hfuel
          have h5 : ((unionPass r (o :: rest)).1.length + 1) * (n + 1) + (n - 0) + 1 ≤
              fuel + 1 := by
            have h6 : (rest.length + 1 + 1) * (n + 1) ≤ fuel + 1 :=
              le_trans (Nat.le_add_right _ _) h3
            have h7 : ((unionPass r (o :: rest)).1.length + 1) * (n + 1) + (n - 0) + 1 =
                ((unionPass r (o :: rest)).1.length + 1) * (n + 1) + (n + 1) := by
              rw [Nat.sub_zero]
              ring
            rw [h7]
            exact le_trans h2 h6
          exact Nat.succ_le_succ_iff.mp h5
        · exact tailSep_zero _
      | false =>
        simp only [cond_false]
        rcases (unionPass_spec (o :: rest) r).2 hch with ⟨hkept, hacc, hseps⟩
        rw [hkept, hacc]
        have hrot : TailSep ((o :: rest) ++ [r]) (nc + 1) := tailSep_rotate ht hseps
        by_cases hge : nc + 1 ≥ n
        · rw [if_pos hge]
          apply tailSep_pairwise hrot
          simp only [List.length_append, List.length_cons, List.length_nil]
          omega
        · rw [if_neg hge]
          apply ih
          · simp only [List.length_append, List.length_cons, List.length_nil]
            omega
          · have h4 : ((o :: rest) ++ [r]).length = (r :: o :: rest).length := by simp
            rw [h4]
            have h5 : n - (nc + 1) + 1 = n - nc := by omega
            have h6 : (r :: o :: rest).length * (n + 1) + (n - (nc + 1)) + 1 =
                (r :: o :: rest).length * (n + 1) + (n - nc) := by
              rw [Nat.add_assoc, h5]
            exact Nat.succ_le_succ_iff.mp (by rw [← h6] at hfuel; exact hfuel)
          · exact hrot

theorem pyUnion_spec (l : List (Int × Int)) (hwf : ∀ r ∈ l, wfRange r) :
    (∀ r ∈ pyUnion l, wfRange r) ∧
    (∀ x, inRanges x (pyUnion l) ↔ inRanges x l) ∧
    (pyUnion l).Pairwise SepRanges := by
  unfold pyUnion
  rcases unionGo_elems (l.length * (l.length + 1) + l.length + 1) l 0 l.length hwf
    with ⟨h1, h2⟩
  refine ⟨h1, h2, ?_⟩
  apply unionGo_pairwise _ _ _ _ (le_refl _) ?_ (tailSep_zero l)
  rw [Nat.sub_zero]
  exact Nat.le_succ _

theorem sortRanges_spec (l : List (Int × Int)) :
    (sortRanges l).Sorted rangeLe ∧
    (∀ x, inRanges x (sortRanges l) ↔ inRanges x l) ∧
    (∀ r, r ∈ sortRanges l ↔ r ∈ l) ∧
    (l.Pairwise SepRanges → (sortRanges l).Pairwise SepRanges) := by
  have hp : List.Perm (l.insertionSort rangeLe) l := List.perm_insertionSort rangeLe l
  refine ⟨List.sorted_insertionSort rangeLe l, ?_, ?_, ?_⟩
  · intro x
    constructor
    · rintro ⟨r, hr, h1, h2⟩
      exact ⟨r, hp.mem_iff.mp hr, h1, h2⟩
    · rintro ⟨r, hr, h1, h2⟩
      exact ⟨r, hp.mem_iff.mpr hr, h1, h2⟩
  · intro r
    exact hp.mem_iff
  · intro hpw
    exact (List.Perm.pairwise_iff (fun h => SepRanges_symm h) hp).mpr hpw

theorem mkIntSet_spec (c : List (Int × Int)) (u : Int × Int)
    (hwf : ∀ r ∈ c, wfRange r)
    (hsub : ∀ x, inRanges x c → u.1 ≤ x ∧ x ≤ u.2)
    (hu : u.1 ≤ u.2) :
    (mkIntSet c u).Inv ∧ (mkIntSet c u).universeI = u ∧
    (∀ x, (mkIntSet c u).elems x ↔ inRanges x c) := by
  rcases pyUnion_spec c hwf with ⟨p1, p2, p3⟩
  rcases sortRanges_spec (pyUnion c) with ⟨s1, s2, s3, s4⟩
  have helems : ∀ x, (mkIntSet c u).elems x ↔ inRanges x c := by
    intro x
    exact (s2 x).trans (p2 x)
  have hwfc : ∀ r ∈ (mkIntSet c u).content, wfRange r := by
    intro r hr
    exact p1 r ((s3 r).mp hr)
  refine ⟨⟨hu, ?_, s1, s4 p3⟩, rfl, helems⟩
  intro r hr
  have hw : wfRange r := hwfc r hr
  have hmem1 : inRanges r.1 (sortRanges (pyUnion c)) := ⟨r, hr, le_refl r.1, hw⟩
  have hmem2 : inRanges r.2 (sortRanges (pyUnion c)) := ⟨r, hr, hw, le_refl r.2⟩
  have hb1 := hsub r.1 ((helems r.1).mp hmem1)
  have hb2 := hsub r.2 ((helems r.2).mp hmem2)
  exact ⟨hw, hb1.1, hb2.2⟩

theorem stop_ge_of_elems {a b : Int × Int} {ta : List (Int × Int)}
    (hwa : wfRange a) (hsep : ∀ r ∈ ta, SepRanges a r)
    (hwta : ∀ r ∈ ta, wfRange r)
    (ha1 : a.1 = b.1)
    (helems : ∀ x, b.1 ≤ x ∧ x ≤ b.2 → inRanges x (a :: ta)) :
    b.2 ≤ a.2 := by
  by_contra hlt
  push_neg at hlt
  have hx : inRanges (a.2 + 1) (a :: ta) := by
    apply helems
    unfold wfRange at hwa
    omega
  rcases hx with ⟨r, hr, hr1, hr2⟩
  rcases List.mem_cons.mp hr with rfl | hr
  · omega
  · have hs := hsep r hr
    have hw := hwta r hr
    unfold SepRanges at hs
    unfold wfRange at hwa hw
    omega

theorem inRanges_tail_iff {h : Int × Int} {t : List (Int × Int)}
    (hsep : ∀ r ∈ t, SepRanges h r) (x : Int) :
    inRanges x t ↔ (inRanges x (h :: t) ∧ ¬(h.1 ≤ x ∧ x ≤ h.2)) := by
  constructor
  · rintro ⟨r, hr, h1, h2⟩
    refine ⟨⟨r, List.mem_cons_of_mem _ hr, h1, h2⟩, ?_⟩
    have hs := hsep r hr
    unfold SepRanges at hs
    omega
  · rintro ⟨⟨r, hr, h1, h2⟩, hnot⟩
    rcases List.mem_cons.mp hr with rfl | hr
    · exact absurd ⟨h1, h2⟩ hnot
    · exact ⟨r, hr, h1, h2⟩

theorem canonical_unique : ∀ (l1 l2 : List (Int × Int)),
    (∀ r ∈ l1, wfRange r) → (∀ r ∈ l2, wfRange r) →
    l1.Sorted rangeLe → l2.Sorted rangeLe →
    l1.Pairwise SepRanges → l2.Pairwise SepRanges →
    (∀ x, inRanges x l1 ↔ inRanges x l2) → l1 = l2 := by
  intro l1
  induction l1 with
  | nil =>
    intro l2 _ hw2 _ _ _ _ hiff
    rcases l2 with _ | ⟨h2, t2⟩
    · rfl
    · exfalso
      have hw := hw2 h2 (List.mem_cons_self _ _)
      have hm : inRanges h2.1 (h2 :: t2) := ⟨h2, List.mem_cons_self _ _, le_refl _, hw⟩
      exact inRanges_nil h2.1 ((hiff h2.1).mpr hm)
  | cons h1 t1 ih =>
    intro l2 hw1 hw2 hs1 hs2 hp1 hp2 hiff
    rcases l2 with _ | ⟨h2, t2⟩
    · exfalso
      have hw := hw1 h1 (List.mem_cons_self _ _)
      have hm : inRanges h1.1 (h1 :: t1) := ⟨h1, List.mem_cons_self _ _, le_refl _, hw⟩
      exact inRanges_nil h1.1 ((hiff h1.1).mp hm)
    · have hwh1 : wfRange h1 := hw1 h1 (List.mem_cons_self _ _)
      have hwh2 : wfRange h2 := hw2 h2 (List.mem_cons_self _ _)
      have hwt1 : ∀ r ∈ t1, wfRange r := fun r hr => hw1 r (List.mem_cons_of_mem _ hr)
      have hwt2 : ∀ r ∈ t2, wfRange r := fun r hr => hw2 r (List.mem_cons_of_mem _ hr)
      rcases List.sorted_cons.mp hs1 with ⟨hle1, hst1⟩
      rcases List.sorted_cons.mp hs2 with ⟨hle2, hst2⟩
      rcases List.pairwise_cons.mp hp1 with ⟨hsep1, hpt1⟩
      rcases List.pairwise_cons.mp hp2 with ⟨hsep2, hpt2⟩
      have hstart : h1.1 = h2.1 := by
        have hm1 : inRanges h1.1 (h2 :: t2) :=
          (hiff h1.1).mp ⟨h1, List.mem_cons_self _ _, le_refl _, hwh1⟩
        have hm2 : inRanges h2.1 (h1 :: t1) :=
          (hiff h2.1).mpr ⟨h2, List.mem_cons_self _ _, le_refl _, hwh2⟩
        rcases hm1 with ⟨r, hr, hra, hrb⟩
        rcases hm2 with ⟨q, hq, hqa, hqb⟩
        have hrge : h2.1 ≤ r.1 := by
          rcases List.mem_cons.mp hr with rfl | hr
          · exact le_refl _
          · have := hle2 r hr
            unfold rangeLe at this
            omega
        have hqge : h1.1 ≤ q.1 := by
          rcases List.mem_cons.mp hq with rfl | hq
          · exact le_refl _
          · have := hle1 q hq
            unfold rangeLe at this
            omega
        omega
      have hstop : h1.2 = h2.2 := by
        have hd1 : h2.2 ≤ h1.2 := by
          apply stop_ge_of_elems hwh1 hsep1 hwt1 hstart
          intro x hx
          exact (hiff x).mpr ⟨h2, List.mem_cons_self _ _, hx.1, hx.2⟩
        have hd2 : h1.2 ≤ h2.2 := by
          apply stop_ge_of_elems hwh2 hsep2 hwt2 hstart.symm
          intro x hx
          exact (hiff x).mp ⟨h1, List.mem_cons_self _ _, hx.1, hx.2⟩
        omega
      have hh : h1 = h2 := by
        rw [Prod.ext_iff]
        exact ⟨hstart, hstop⟩
      have htiff : ∀ x, inRanges x t1 ↔ inRanges x t2 := by
        intro x
        rw [inRanges_tail_iff hsep1 x, inRanges_tail_iff hsep2 x, hiff x, hh]
      rw [hh, ih t2 hwt1 hwt2 hst1 hst2 hpt1 hpt2 htiff]

theorem intSet_unique {A B : IntSet} (hA : A.Inv) (hB : B.Inv)
    (hu : A.universeI = B.universeI) (he : ∀ x, A.elems x ↔ B.elems x) : A = B := by
  have hc : A.content = B.content :=
    canonical_unique A.content B.content (fun r hr => (hA.2.1 r hr).1)
      (fun r hr => (hB.2.1 r hr).1) hA.2.2.1 hB.2.2.1 hA.2.2.2 hB.2.2.2 he
  rcases A with ⟨ua, ca⟩
  rcases B with ⟨ub, cb⟩
  simp only at hu hc
  rw [hu, hc]

theorem isEmptyS_nil {a : IntSet} (h : a.isEmptyS = true) : a.content = [] := by
  unfold IntSet.isEmptyS at h
  rcases hc : a.content with _ | ⟨r, t⟩
  · rfl
  · rw [hc] at h
    simp [List.isEmpty] at h

theorem elems_sub_universe {a : IntSet} (ha : a.Inv) :
    ∀ x, inRanges x a.content → a.universeI.1 ≤ x ∧ x ≤ a.universeI.2 := by
  rintro x ⟨r, hr, h1, h2⟩
  have h3 := (ha.2.1 r hr).2
  unfold inUniverse at h3
  omega

theorem inter_spec (a b : IntSet) (ha : a.Inv)
    (hwb : ∀ r ∈ b.content, wfRange r) :
    (a.inter b).Inv ∧ (a.inter b).universeI = a.universeI ∧
    (∀ x, (a.inter b).elems x ↔ (a.elems x ∧ b.elems x)) := by
  have hwa : ∀ r ∈ a.content, wfRange r := fun r hr => (ha.2.1 r hr).1
  unfold IntSet.inter
  by_cases hemp : a.isEmptyS = true
  · rw [if_pos hemp]
    have hnil : a.content = [] := isEmptyS_nil hemp
    refine ⟨ha, rfl, ?_⟩
    intro x
    unfold IntSet.elems
    rw [hnil]
    constructor
    · intro h
      exact absurd h (inRanges_nil x)
    · rintro ⟨h, _⟩
      exact absurd h (inRanges_nil x)
  · rw [if_neg hemp]
    have hLwf : ∀ c ∈ a.content.flatMap (fun r => b.content.filterMap fun s =>
        if r.1 > s.2 ∨ s.1 > r.2 then none
        else some (max r.1 s.1, min r.2 s.2)), wfRange c := by
      intro c hc
      rcases List.mem_flatMap.mp hc with ⟨r, hr, hc2⟩
      rcases List.mem_filterMap.mp hc2 with ⟨q, hq, hc3⟩
      by_cases hcond : r.1 > q.2 ∨ q.1 > r.2
      · rw [if_pos hcond] at hc3
        cases hc3
      · rw [if_neg hcond] at hc3
        have hwr := hwa r hr
        have hwq := hwb q hq
        injection hc3 with hc4
        subst hc4
        unfold wfRange at hwr hwq ⊢
        dsimp only
        omega
    have hLelems : ∀ x, inRanges x (a.content.flatMap (fun r =>
        b.content.filterMap fun s =>
        if r.1 > s.2 ∨ s.1 > r.2 then none
        else some (max r.1 s.1, min r.2 s.2))) ↔
        (inRanges x a.content ∧ inRanges x b.content) := by
      intro x
      constructor
      · rintro ⟨c, hc, hx1, hx2⟩
        rcases List.mem_flatMap.mp hc with ⟨r, hr, hc2⟩
        rcases List.mem_filterMap.mp hc2 with ⟨q, hq, hc3⟩
        by_cases hcond : r.1 > q.2 ∨ q.1 > r.2
        · rw [if_pos hcond] at hc3
          cases hc3
        · rw [if_neg hcond] at hc3
          injection hc3 with hc4
          subst hc4
          dsimp only at hx1 hx2
          exact ⟨⟨r, hr, by omega, by omega⟩, ⟨q, hq, by omega, by omega⟩⟩
      · rintro ⟨⟨r, hr, hr1, hr2⟩, ⟨q, hq, hq1, hq2⟩⟩
        have hcond : ¬(r.1 > q.2 ∨ q.1 > r.2) := by omega
        refine ⟨(max r.1 q.1, min r.2 q.2), ?_, by dsimp only; omega, by dsimp only; omega⟩
        apply List.mem_flatMap.mpr
        refine ⟨r, hr, List.mem_filterMap.mpr ⟨q, hq, ?_⟩⟩
        rw [if_neg hcond]
    rcases pyUnion_spec _ hLwf with ⟨p1, p2, _⟩
    rcases mkIntSet_spec (pyUnion _) a.universeI p1
      (fun x hx => elems_sub_universe ha x ((hLelems x).mp ((p2 x).mp hx)).1)
      ha.1 with ⟨m1, m2, m3⟩
    refine ⟨m1, m2, ?_⟩
    intro x
    rw [m3 x, p2 x, hLelems x]
    exact Iff.rfl

theorem complementRange_spec (u : Int × Int) (hu : u.1 ≤ u.2) (s e : Int)
    (hw : s ≤ e) (hin1 : u.1 ≤ s) (hin2 : e ≤ u.2) :
    (complementRange false u s e).Inv ∧
    (complementRange false u s e).universeI = u ∧
    (∀ x, (complementRange false u s e).elems x ↔
      (u.1 ≤ x ∧ x ≤ u.2 ∧ ¬(s ≤ x ∧ x ≤ e))) := by
  unfold complementRange
  by_cases h1 : (s, e) = u
  · rw [if_pos h1]
    rcases mkIntSet_spec [] u (fun r hr => absurd hr (List.not_mem_nil r))
      (fun x hx => absurd hx (inRanges_nil x)) hu with ⟨m1, m2, m3⟩
    refine ⟨m1, m2, ?_⟩
    intro x
    rw [m3 x]
    rw [Prod.ext_iff] at h1
    dsimp only at h1
    constructor
    · intro h
      exact absurd h (inRanges_nil x)
    · rintro ⟨hx1, hx2, hx3⟩
      exact absurd ⟨by omega, by omega⟩ hx3
  · rw [if_neg h1, if_neg (by decide : ¬(false = true))]
    have hne : ¬(s = u.1 ∧ e = u.2) := by
      intro hc
      apply h1
      rw [Prod.ext_iff]
      exact hc
    by_cases h2 : s = u.1
    · rw [if_pos h2]
      have he2 : e < u.2 := by
        rcases lt_or_eq_of_le hin2 with h | h
        · exact h
        · exact absurd ⟨h2, h⟩ hne
      rcases mkIntSet_spec [(e + 1, u.2)] u
        (fun r hr => by
          rw [List.mem_singleton] at hr
          subst hr
          unfold wfRange
          dsimp only
          omega)
        (fun x hx => by
          rw [inRanges_singleton] at hx
          dsimp only at hx
          omega) hu with ⟨m1, m2, m3⟩
      refine ⟨m1, m2, ?_⟩
      intro x
      rw [m3 x, inRanges_singleton]
      dsimp only
      omega
    · rw [if_neg h2]
      have hs2 : u.1 < s := by omega
      by_cases h3 : e = u.2
      · rw [if_pos h3]
        rcases mkIntSet_spec [(u.1, s - 1)] u
          (fun r hr => by
            rw [List.mem_singleton] at hr
            subst hr
            unfold wfRange
            dsimp only
            omega)
          (fun x hx => by
            rw [inRanges_singleton] at hx
            dsimp only at hx
            omega) hu with ⟨m1, m2, m3⟩
        refine ⟨m1, m2, ?_⟩
        intro x
        rw [m3 x, inRanges_singleton]
        dsimp only
        omega
      · rw [if_neg h3]
        have he2 : e < u.2 := by omega
        rcases mkIntSet_spec [(u.1, s - 1), (e + 1, u.2)] u
          (fun r hr => by
            rcases List.mem_cons.mp hr with rfl | hr
            · unfold wfRange
              dsimp only
              omega
            · rw [List.mem_singleton] at hr
              subst hr
              unfold wfRange
              dsimp only
              omega)
          (fun x hx => by
            rw [inRanges_cons, inRanges_singleton] at hx
            dsimp only at hx
            omega) hu with ⟨m1, m2, m3⟩
        refine ⟨m1, m2, ?_⟩
        intro x
        rw [m3 x, inRanges_cons, inRanges_singleton]
        dsimp only
        omega

theorem complS_spec (a : IntSet) (ha : a.Inv) :
    (a.complS).Inv ∧ (a.complS).universeI = a.universeI ∧
    (∀ x, (a.complS).elems x ↔
      (a.universeI.1 ≤ x ∧ x ≤ a.universeI.2 ∧ ¬ a.elems x)) := by
  have hu : a.universeI.1 ≤ a.universeI.2 := ha.1
  rcases mkIntSet_spec [a.universeI] a.universeI
    (fun r hr => by rw [List.mem_singleton] at hr; subst hr; exact hu)
    (fun x hx => by rw [inRanges_singleton] at hx; exact hx) hu with ⟨i1, i2, i3⟩
  unfold IntSet.complS
  cases hb : a.isEmptyS with
  | true =>
    have hnil : a.content = [] := isEmptyS_nil hb
    rw [hnil]
    simp only [List.map_nil, List.foldl_nil]
    refine ⟨i1, i2, ?_⟩
    intro x
    rw [i3 x, inRanges_singleton]
    unfold IntSet.elems
    rw [hnil]
    constructor
    · intro h
      exact ⟨h.1, h.2, inRanges_nil x⟩
    · rintro ⟨hx1, hx2, _⟩
      exact ⟨hx1, hx2⟩
  | false =>
    have haux : ∀ (l : List (Int × Int)) (acc : IntSet),
        (∀ r ∈ l, wfRange r ∧ inUniverse a.universeI r) →
        acc.Inv → acc.universeI = a.universeI →
        (∀ x, acc.elems x → a.universeI.1 ≤ x ∧ x ≤ a.universeI.2) →
        ((l.map fun r => complementRange false a.universeI r.1 r.2).foldl
            (fun x y => x.inter y) acc).Inv ∧
        ((l.map fun r => complementRange false a.universeI r.1 r.2).foldl
            (fun x y => x.inter y) acc).universeI = a.universeI ∧
        (∀ x, ((l.map fun r => complementRange false a.universeI r.1 r.2).foldl
            (fun x y => x.inter y) acc).elems x ↔
          (acc.elems x ∧ ∀ r ∈ l, ¬(r.1 ≤ x ∧ x ≤ r.2))) := by
      intro l
      induction l with
      | nil =>
        intro acc _ h1 h2 _
        simp only [List.map_nil, List.foldl_nil]
        refine ⟨h1, h2, ?_⟩
        intro x
        constructor
        · intro h
          exact ⟨h, fun r hr => absurd hr (List.not_mem_nil r)⟩
        · rintro ⟨h, _⟩
          exact h
      | cons r t ihl =>
        intro acc hl haccI haccU haccSub
        have hr := hl r (List.mem_cons_self _ _)
        rcases complementRange_spec a.universeI hu r.1 r.2 hr.1 hr.2.1 hr.2.2
          with ⟨c1, c2, c3⟩
        rcases inter_spec acc (complementRange false a.universeI r.1 r.2) haccI
          (fun q hq => (c1.2.1 q hq).1) with ⟨n1, n2, n3⟩
        simp only [List.map_cons, List.foldl_cons]
        rcases ihl (acc.inter (complementRange false a.universeI r.1 r.2))
          (fun q hq => hl q (List.mem_cons_of_mem _ hq)) n1 (n2.trans haccU)
          (fun x hx => haccSub x ((n3 x).mp hx).1) with ⟨g1, g2, g3⟩
        refine ⟨g1, g2, ?_⟩
        intro x
        rw [g3 x, n3 x, c3 x]
        constructor
        · rintro ⟨⟨hacc, _, _, hnr⟩, ht⟩
          refine ⟨hacc, ?_⟩
          intro q hq
          rcases List.mem_cons.mp hq with rfl | hq
          · exact hnr
          · exact ht q hq
        · rintro ⟨hacc, hall⟩
          have hx := haccSub x hacc
          exact ⟨⟨hacc, hx.1, hx.2, hall r (List.mem_cons_self _ _)⟩,
            fun q hq => hall q (List.mem_cons_of_mem _ hq)⟩
    rcases haux a.content (mkIntSet [a.universeI] a.universeI) ha.2.1 i1 i2
      (fun x hx => by
        have h2 := (i3 x).mp hx
        rw [inRanges_singleton] at h2
        exact h2) with ⟨g1, g2, g3⟩
    refine ⟨g1, g2, ?_⟩
    intro x
    rw [g3 x, i3 x, inRanges_singleton]
    unfold IntSet.elems
    constructor
    · rintro ⟨⟨hx1, hx2⟩, hall⟩
      refine ⟨hx1, hx2, ?_⟩
      rintro ⟨q, hq, hb1, hb2⟩
      exact hall q hq ⟨hb1, hb2⟩
    · rintro ⟨hx1, hx2, hne⟩
      exact ⟨⟨hx1, hx2⟩, fun q hq hb => hne ⟨q, hq, hb.1, hb.2⟩⟩

theorem unionS_spec (a b : IntSet) (ha : a.Inv) (hb : b.Inv)
    (hu : a.universeI = b.universeI) :
    (a.unionS b).Inv ∧ (a.unionS b).universeI = a.universeI ∧
    (∀ x, (a.unionS b).elems x ↔ (a.elems x ∨ b.elems x)) := by
  unfold IntSet.unionS
  by_cases hemp : a.isEmptyS = true
  · rw [if_pos hemp]
    have hnil : a.content = [] := isEmptyS_nil hemp
    refine ⟨hb, hu.symm, ?_⟩
    intro x
    constructor
    · intro h
      exact Or.inr h
    · rintro (h | h)
      · unfold IntSet.elems at h
        rw [hnil] at h
        exact absurd h (inRanges_nil x)
      · exact h
  · rw [if_neg hemp]
    have hwfapp : ∀ r ∈ a.content ++ b.content, wfRange r := by
      intro r hr
      rcases List.mem_append.mp hr with hr | hr
      · exact (ha.2.1 r hr).1
      · exact (hb.2.1 r hr).1
    rcases pyUnion_spec _ hwfapp with ⟨p1, p2, _⟩
    rcases mkIntSet_spec (pyUnion (a.content ++ b.content)) a.universeI p1
      (fun x hx => by
        have h2 := (p2 x).mp hx
        rw [inRanges_append] at h2
        rcases h2 with h2 | h2
        · exact elems_sub_universe ha x h2
        · rw [hu]
          exact elems_sub_universe hb x h2) ha.1 with ⟨m1, m2, m3⟩
    refine ⟨m1, m2, ?_⟩
    intro x
    rw [m3 x, p2 x, inRanges_append]
    exact Iff.rfl

theorem emptySet_spec (u : Int × Int) (hu : u.1 ≤ u.2) :
    (IntSet.emptySet u).Inv ∧ (IntSet.emptySet u).universeI = u ∧
    ∀ x, ¬ (IntSet.emptySet u).elems x := by
  unfold IntSet.emptySet
  rcases mkIntSet_spec [] u (fun r hr => absurd hr (List.not_mem_nil r))
    (fun x hx => absurd hx (inRanges_nil x)) hu with ⟨m1, m2, m3⟩
  exact ⟨m1, m2, fun x hx => inRanges_nil x ((m3 x).mp hx)⟩

/-- Claim C7: over a common universe, | is commutative, A & ~A is the
empty set, A - B is literally A & ~B, and the canonical representation
is unique: any two invariant-satisfying IntSets with the same universe
and the same integer elements are equal (so in particular their sorted,
pairwise separated range lists coincide).  The hypotheses are the
constructor-established invariant, which __init__ (mkIntSet) is proved
to produce in mkIntSet_spec. -/
theorem claim_C7 (a b : IntSet) (ha : a.Inv) (hb : b.Inv)
    (hu : a.universeI = b.universeI) :
    a.unionS b = b.unionS a ∧
    a.inter a.complS = IntSet.emptySet a.universeI ∧
    a.diff b = a.inter b.complS ∧
    ∀ c d : IntSet, c.Inv → d.Inv → c.universeI = d.universeI →
      (∀ x, c.elems x ↔ d.elems x) → c = d := by
  rcases unionS_spec a b ha hb hu with ⟨u1, u2, u3⟩
  rcases unionS_spec b a hb ha hu.symm with ⟨v1, v2, v3⟩
  rcases complS_spec a ha with ⟨c1, c2, c3⟩
  rcases inter_spec a a.complS ha (fun r hr => (c1.2.1 r hr).1) with ⟨n1, n2, n3⟩
  rcases emptySet_spec a.universeI ha.1 with ⟨e1, e2, e3⟩
  refine ⟨?_, ?_, rfl, fun c d hc hd hcd hcde => intSet_unique hc hd hcd hcde⟩
  · apply intSet_unique u1 v1 (u2.trans (hu.trans v2.symm))
    intro x
    rw [u3 x, v3 x]
    exact or_comm
  · apply intSet_unique n1 e1 (n2.trans e2.symm)
    intro x
    rw [n3 x]
    constructor
    · rintro ⟨hax, hcx⟩
      exact absurd hax ((c3 x).mp hcx).2.2
    · intro hx
      exact absurd hx (e3 x)

/-- Witness for claim C7 at the sets of the module self-test of
int_sets.py (p and q over universe (0, 20)). -/
theorem claim_C7_witness :
    (mkIntSet [(0, 1), (4, 4), (8, 14)] (0, 20)).Inv ∧
    (mkIntSet [(2, 6), (12, 17), (20, 20)] (0, 20)).Inv ∧
    (mkIntSet [(0, 1), (4, 4), (8, 14)] (0, 20)).universeI =
      (mkIntSet [(2, 6), (12, 17), (20, 20)] (0, 20)).universeI ∧
    (mkIntSet [(0, 1), (4, 4), (8, 14)] (0, 20)).unionS
        (mkIntSet [(2, 6), (12, 17), (20, 20)] (0, 20)) =
      (mkIntSet [(2, 6), (12, 17), (20, 20)] (0, 20)).unionS
        (mkIntSet [(0, 1), (4, 4), (8, 14)] (0, 20)) ∧
    (mkIntSet [(0, 1), (4, 4), (8, 14)] (0, 20)).inter
        (mkIntSet [(0, 1), (4, 4), (8, 14)] (0, 20)).complS =
      IntSet.emptySet (mkIntSet [(0, 1), (4, 4), (8, 14)] (0, 20)).universeI := by
  have h := claim_C7 (mkIntSet [(0, 1), (4, 4), (8, 14)] (0, 20))
    (mkIntSet [(2, 6), (12, 17), (20, 20)] (0, 20)) (by decide) (by decide)
    (by decide)
  exact ⟨by decide, by decide, by decide, h.1, h.2.1⟩

end PyGLL
